import Mathlib

/-!
# Verification of the ScrabbleBackend move engine

A shallow embedding, in Lean 4, of the Go Scrabble engine under `src/`:
the DAWG (a trie built by `DAWG.insert`), the generic navigation engine
(`Navigation.Go` / `FromNode` / `FromEdge` / `Resume`) and its navigators,
the board with its premium-multiplier tables, the rack, the bag, the four
move kinds with their `IsValid` / `Apply` / `Score` methods, and the game
loop (`Game.ApplyValid`, `Game.IsOver`).

Strings are modelled as `List Char` (Go `[]rune`); Go maps iterated in
some order become association lists; Go pointers that can be `nil` become
`Option`; fallible operations return `Option` or an explicit outcome
type.  The random index drawn by `Bag.DrawTile` is modelled as index `0`:
which tile is drawn is irrelevant to every property stated here (they
only mention tile counts and letters already forced by the context).
-/

namespace Scrabble

/-! ## Tiles and the tile set (`bag.go`: `initTileSet`) -/

/-- A tile: `(letter, value)` (`Tile` in `tile.go`). -/
structure Tile where
  letter : Char
  value : Nat
  deriving Repr, DecidableEq

/-- `TileSet.Values` of the default (French) tile set, `initTileSet` in
`bag.go`.  Letters outside the map give `0`, as a missing key of a Go
`map[rune]int` does. -/
def tileValue (c : Char) : Nat :=
  if c = 'a' then 1 else if c = 'b' then 3 else if c = 'c' then 3
  else if c = 'd' then 2 else if c = 'e' then 1 else if c = 'f' then 4
  else if c = 'g' then 2 else if c = 'h' then 4 else if c = 'i' then 1
  else if c = 'j' then 8 else if c = 'k' then 10 else if c = 'l' then 1
  else if c = 'm' then 2 else if c = 'n' then 1 else if c = 'o' then 1
  else if c = 'p' then 3 else if c = 'q' then 8 else if c = 'r' then 1
  else if c = 's' then 1 else if c = 't' then 1 else if c = 'u' then 1
  else if c = 'v' then 4 else if c = 'w' then 10 else if c = 'x' then 10
  else if c = 'y' then 10 else if c = 'z' then 10 else 0

/-- `unicode.ToUpper` restricted to the lowercase ASCII letters used by
the engine (`TileMove.Apply` uppercases the letter shown on a played
blank). -/
def toUpperChar (c : Char) : Char :=
  if 'a' ≤ c ∧ c ≤ 'z' then Char.ofNat (c.toNat - 32) else c

/-! ## Board geometry and premium squares (`board.go`) -/

/-- `BoardSize`. -/
def BoardSize : Nat := 15

/-- `BoardCenter`. -/
def BoardCenter : Nat := 7

/-- A board coordinate (`Position`).  Rows and columns are kept as `Nat`;
the Go code only ever builds in-bounds positions, and `InBounds` is
modelled below. -/
structure Pos where
  row : Nat
  col : Nat
  deriving Repr, DecidableEq

/-- `Position.InBounds` (the `Row < 0` / `Col < 0` cases vanish with
`Nat` coordinates). -/
def Pos.inBounds (p : Pos) : Bool :=
  p.row < BoardSize && p.col < BoardSize

/-- The four walk directions (`DirectionAbove`, …). -/
inductive Direction where
  | above | left | right | below
  deriving Repr, DecidableEq

/-- The neighbour of `p` in direction `d`: the `Adjacents` pointer table
built by `NewBoard` (boundary entries are `nil`). -/
def adjacent (p : Pos) (d : Direction) : Option Pos :=
  match d with
  | .above => if p.row > 0 then some ⟨p.row - 1, p.col⟩ else none
  | .below => if p.row < BoardSize - 1 then some ⟨p.row + 1, p.col⟩ else none
  | .left  => if p.col > 0 then some ⟨p.row, p.col - 1⟩ else none
  | .right => if p.col < BoardSize - 1 then some ⟨p.row, p.col + 1⟩ else none

/-- The `wordMultipliers` table of `board.go`, row by row, each digit of
the 15 strings becoming one entry. -/
def wordMultipliers : List (List Nat) :=
  [[3,1,1,1,1,1,1,3,1,1,1,1,1,1,3],
   [1,2,1,1,1,1,1,1,1,1,1,1,1,2,1],
   [1,1,2,1,1,1,1,1,1,1,1,1,2,1,1],
   [1,1,1,2,1,1,1,1,1,1,1,2,1,1,1],
   [1,1,1,1,2,1,1,1,1,1,2,1,1,1,1],
   [1,1,1,1,1,1,1,1,1,1,1,1,1,1,1],
   [1,1,1,1,1,1,1,1,1,1,1,1,1,1,1],
   [3,1,1,1,1,1,1,2,1,1,1,1,1,1,3],
   [1,1,1,1,1,1,1,1,1,1,1,1,1,1,1],
   [1,1,1,1,1,1,1,1,1,1,1,1,1,1,1],
   [1,1,1,1,2,1,1,1,1,1,2,1,1,1,1],
   [1,1,1,2,1,1,1,1,1,1,1,2,1,1,1],
   [1,1,2,1,1,1,1,1,1,1,1,1,2,1,1],
   [1,2,1,1,1,1,1,1,1,1,1,1,1,2,1],
   [3,1,1,1,1,1,1,3,1,1,1,1,1,1,3]]

/-- The `letterMultipliers` table of `board.go`. -/
def letterMultipliers : List (List Nat) :=
  [[1,1,1,2,1,1,1,1,1,1,1,2,1,1,1],
   [1,1,1,1,1,3,1,1,1,3,1,1,1,1,1],
   [1,1,1,1,1,1,2,1,2,1,1,1,1,1,1],
   [2,1,1,1,1,1,1,2,1,1,1,1,1,1,2],
   [1,1,1,1,1,1,1,1,1,1,1,1,1,1,1],
   [1,3,1,1,1,3,1,1,1,3,1,1,1,3,1],
   [1,1,2,1,1,1,2,1,2,1,1,1,2,1,1],
   [1,1,1,2,1,1,1,1,1,1,1,2,1,1,1],
   [1,1,2,1,1,1,2,1,2,1,1,1,2,1,1],
   [1,3,1,1,1,3,1,1,1,3,1,1,1,3,1],
   [1,1,1,1,1,1,1,1,1,1,1,1,1,1,1],
   [2,1,1,1,1,1,1,2,1,1,1,1,1,1,2],
   [1,1,1,1,1,1,2,1,2,1,1,1,1,1,1],
   [1,1,1,1,1,3,1,1,1,3,1,1,1,1,1],
   [1,1,1,2,1,1,1,1,1,1,1,2,1,1,1]]

/-- `Square.WordMultiplier` at a position (looked up from the table). -/
def wordMultiplier (p : Pos) : Nat :=
  ((wordMultipliers.getD p.row []).getD p.col 1)

/-- `Square.LetterMultiplier` at a position. -/
def letterMultiplier (p : Pos) : Nat :=
  ((letterMultipliers.getD p.row []).getD p.col 1)

/-- The mutable part of a `Board`: the tiles placed so far, as an
association list over positions (the multiplier tables are global
constants above, exactly as the Go tables are package-level data parsed
once by `NewBoard`). -/
structure Board where
  placed : List (Pos × Tile)
  deriving Repr, DecidableEq

/-- The empty board produced by `NewBoard`. -/
def Board.empty : Board := ⟨[]⟩

/-- `Square.Tile` at a position: `some t` when a tile has been placed. -/
def Board.tileAt (b : Board) (p : Pos) : Option Tile :=
  (b.placed.find? (fun e => e.1 = p)).map Prod.snd

/-- `Board.PlaceTile` (the `part_002` revision used by `Game.PlayTile`):
out-of-bounds positions give `ErrInvalidPosition`, occupied squares give
`ErrExistingTile`; both are modelled as `none`. -/
def Board.placeTile (b : Board) (t : Tile) (p : Pos) : Option Board :=
  if !p.inBounds then none
  else if (b.tileAt p).isSome then none
  else some ⟨(p, t) :: b.placed⟩

/-- How many more steps a walk in direction `d` can take from `p` before
falling off the board: used only as a termination measure for
`Board.tileFragment`. -/
def stepsLeft (p : Pos) (d : Direction) : Nat :=
  match d with
  | .above => p.row
  | .left  => p.col
  | .right => BoardSize - 1 - p.col
  | .below => BoardSize - 1 - p.row

/-- `Board.TileFragment`: the tiles extending from `pos` in direction
`d`, not including `pos` itself, stopping at the first empty square or
board edge. -/
def Board.tileFragment (b : Board) (p : Pos) (d : Direction) : List Tile :=
  if !p.inBounds then []
  else go p (stepsLeft p d)
where
  /-- The `for` loop of `TileFragment`; the fuel equals the distance to
  the board edge, which bounds the number of iterations. -/
  go (p : Pos) : Nat → List Tile
  | 0 => []
  | n + 1 =>
    match adjacent p d with
    | none => []
    | some q =>
      match b.tileAt q with
      | none => []
      | some t => t :: go q n

/-- `Board.WordFragment`: letters of the fragment, reversed into reading
order for the `left`/`above` directions. -/
def Board.wordFragment (b : Board) (p : Pos) (d : Direction) : List Char :=
  let frag := (b.tileFragment p d).map Tile.letter
  if d = .left || d = .above then frag.reverse else frag

/-- `Board.CrossWordFragments`. -/
def Board.crossWordFragments (b : Board) (p : Pos) (horizontal : Bool) :
    List Char × List Char :=
  if horizontal then (b.wordFragment p .left, b.wordFragment p .right)
  else (b.wordFragment p .above, b.wordFragment p .below)

/-- `Board.CrossScore`: sum of the tile values on the two perpendicular
fragments, plus whether any crossing tile exists. -/
def Board.crossScore (b : Board) (p : Pos) (horizontal : Bool) : Bool × Nat :=
  let fragments :=
    if horizontal then b.tileFragment p .left ++ b.tileFragment p .right
    else b.tileFragment p .above ++ b.tileFragment p .below
  (!fragments.isEmpty, (fragments.map Tile.value).sum)

/-- `Board.NumAdjacentTiles`. -/
def Board.numAdjacentTiles (b : Board) (p : Pos) : Nat :=
  [Direction.above, Direction.left, Direction.right, Direction.below].countP
    (fun d => ((adjacent p d).bind b.tileAt).isSome)

/-- `Square.IsAnchor`: an empty square with at least one occupied
neighbour. -/
def Board.isAnchorSq (b : Board) (p : Pos) : Bool :=
  (b.tileAt p).isNone &&
    [Direction.above, Direction.left, Direction.right, Direction.below].any
      (fun d => ((adjacent p d).bind b.tileAt).isSome)

/-! ## Rack (`rack.go`) and bag (`bag.go`) -/

/-- `RackSize`. -/
def RackSize : Nat := 7

/-- A rack is the ordered list of its tiles (`Rack.Tiles`). -/
abbrev Rack := List Tile

/-- `Rack.Index`: index of the first tile with the given letter, `-1` (here
`none`) when absent. -/
def rackIndex (r : Rack) (letter : Char) : Option Nat :=
  r.findIdx? (fun t => t.letter = letter)

/-- `Rack.GetTile`: the first tile carrying `letter`, or the
`ErrTileNotInRack` error (`none`). -/
def rackGetTile (r : Rack) (letter : Char) : Option Tile :=
  r.find? (fun t => t.letter = letter)

/-- `Rack.Remove`: delete the first tile carrying `letter`, keeping order;
`none` models `ErrTileNotInRack`. -/
def rackRemove (r : Rack) (letter : Char) : Option Rack :=
  match r with
  | [] => none
  | t :: rest =>
    if t.letter = letter then some rest
    else (rackRemove rest letter).map (t :: ·)

/-- `Rack.AsRunes` / `Rack.AsString`. -/
def rackLetters (r : Rack) : List Char := r.map Tile.letter

/-- A bag is the list of its tiles (`Bag.Tiles`). -/
abbrev Bag := List Tile

/-- `Bag.DrawTile` with the random index modelled as `0`; the drawn slot
is overwritten by the last tile (`Bag.RemoveTile`'s swap-with-last) and
the slice shrinks by one.  Only the count and the multiset of tiles
matter to the properties proved here.  `none` models `ErrBagEmpty`. -/
def bagDraw : Bag → Option (Tile × Bag)
  | [] => none
  | [t] => some (t, [])
  | t :: rest => some (t, rest.reverse.headD t :: rest.dropLast)

/-- `Bag.ExchangeAllowed`: at least `RackSize` tiles left. -/
def bagExchangeAllowed (b : Bag) : Bool := RackSize ≤ b.length

/-- `Bag.ReturnTile`. -/
def bagReturn (b : Bag) (t : Tile) : Bag := b ++ [t]

/-- The loop of `Rack.Fill`: draw until the rack holds `RackSize` tiles
or the bag is empty.  The Go loop guard is `len(r.Tiles) != RackSize`;
each iteration removes one tile from the bag, so a fuel equal to the
initial bag size never runs out before the loop exits on its own. -/
def rackFillGo : Rack → Bag → Nat → Rack × Bag
  | r, b, 0 => (r, b)
  | r, b, fuel + 1 =>
    if r.length = RackSize then (r, b)
    else
      match bagDraw b with
      | none => (r, b)
      | some (t, b') => rackFillGo (r ++ [t]) b' fuel

/-- `Rack.Fill`. -/
def rackFill (r : Rack) (b : Bag) : Rack × Bag := rackFillGo r b b.length

/-! ## The DAWG (`dawg.go`)

`Node` carries `IsWord` and an edge map `Letter → Node`; the Go map is
modelled as an association list (the map's iteration order is
unspecified in Go, so the list order carries no meaning beyond picking
one). -/

/-- `Node` of `dawg.go`. -/
inductive Node where
  | mk (isWord : Bool) (edges : List (Char × Node))

/-- `Node.IsWord`. -/
def Node.isWord : Node → Bool
  | .mk b _ => b

/-- `Node.Edges`. -/
def Node.edges : Node → List (Char × Node)
  | .mk _ es => es

/-- `curr.Edges[letter]` lookup. -/
def lookupEdge (es : List (Char × Node)) (c : Char) : Option Node :=
  (es.find? (fun e => e.1 = c)).map Prod.snd

/-- Store a child under `c`, replacing an existing binding or appending a
new one (`curr.Edges[letter] = next`). -/
def updateEdge (es : List (Char × Node)) (c : Char) (child : Node) :
    List (Char × Node) :=
  match es with
  | [] => [(c, child)]
  | (c', m) :: tail =>
    if c' = c then (c, child) :: tail else (c', m) :: updateEdge tail c child

/-- `DAWG.insert`: walk the word, creating missing nodes, and mark the
last node as a word. -/
def Node.insert (n : Node) (w : List Char) : Node :=
  match w with
  | [] => .mk true n.edges
  | c :: rest =>
    let next := (lookupEdge n.edges c).getD (.mk false [])
    .mk n.isWord (updateEdge n.edges c (next.insert rest))

/-- `NewDawg`: insert every dictionary word into an initially empty
root. -/
def buildDawg (words : List (List Char)) : Node :=
  words.foldl Node.insert (.mk false [])

/-- Trie membership: walk the edges of `w` and report the final node's
`IsWord` flag.  This is the specification-side notion of "the word is
contained in the DAWG" (spec §4.1); the engine's `DAWG.IsWord` goes
through `FindNavigator` and agrees with it on the tries built here. -/
def memW (n : Node) : List Char → Bool
  | [] => n.isWord
  | c :: rest =>
    match lookupEdge n.edges c with
    | none => false
    | some child => memW child rest

/-- Well-formedness of a trie: at every node the edge letters are
distinct and none of them is the `NoPrefix` sentinel.  `DAWG.insert`
preserves it (proved below); it is what the navigation engine's
"`PopEdge` returns false ⇒ stop trying siblings" shortcut relies on. -/
inductive NodeWF : Node → Prop where
  | mk : ∀ (b : Bool) (es : List (Char × Node)),
      (es.map Prod.fst).Nodup →
      (∀ c ∈ es.map Prod.fst, c ≠ '_') →
      (∀ p ∈ es, NodeWF p.2) →
      NodeWF (.mk b es)

/-! ## The generic navigation engine (`navigator.go`, `part_004`)

A navigator is a record of the five callbacks; the Go methods mutate the
navigator in place, so each callback here threads the navigator state
`σ` explicitly.  `Accepts`/`PushEdge`/`PopEdge` return their `bool`
together with the updated state. -/

/-- `NoPrefix`: the sentinel prefix value `'_'`. -/
def noPrefixChar : Char := '_'

/-- `navState`: an edge, i.e. a prefix letter leading to a next node
(`nil` next pointers become `none`). -/
structure NavState where
  prefixLetter : Char
  nextNode : Option Node

/-- The `Navigator` interface: `IsAccepting`, `Accepts`, `Accept`,
`PushEdge`, `PopEdge` over a navigator state `σ`. -/
structure NavCallbacks (σ : Type) where
  isAccepting : σ → Bool
  accepts : σ → Char → Bool × σ
  accept : σ → List Char → Bool → Option NavState → σ
  pushEdge : σ → Char → Bool × σ
  popEdge : σ → Bool × σ

mutual

/-- `Navigation.FromNode`: fetch the node's edge list (`iterNode` — the
cache is transparent here) and process it in order. -/
def fromNode (cb : NavCallbacks σ) (res : Bool) (n : Node)
    (matched : List Char) (s : σ) : σ :=
  match n with
  | .mk _ es => fromEdges cb res es matched s
termination_by 2 * sizeOf n

/-- The edge loop inside `Navigation.FromNode`: for each edge call
`PushEdge`; if it accepts, descend via `FromEdge` and then ask
`PopEdge` whether to keep trying sibling edges. -/
def fromEdges (cb : NavCallbacks σ) (res : Bool)
    (es : List (Char × Node)) (matched : List Char) (s : σ) : σ :=
  match es with
  | [] => s
  | (c, child) :: tail =>
    match cb.pushEdge s c with
    | (false, s1) => fromEdges cb res tail matched s1
    | (true, s1) =>
      let s2 := fromEdge cb res ⟨c, some child⟩ matched s1
      match cb.popEdge s2 with
      | (false, s3) => s3
      | (true, s3) => fromEdges cb res tail matched s3
termination_by 2 * sizeOf es + 1

/-- `Navigation.FromEdge`: skip the `NoPrefix` sentinel, offer the prefix
letter to `Accepts`, extend `matched`, compute `final`
(`nextNode == nil || nextNode.IsWord`), notify `Accept` (with the full
`navState` only on resumable navigations), and recurse into the next
node while the navigator keeps accepting. -/
def fromEdge (cb : NavCallbacks σ) (res : Bool) (ns : NavState)
    (matched : List Char) (s : σ) : σ :=
  match ns with
  | ⟨p, nn⟩ =>
    if p = noPrefixChar then s
    else
      match cb.accepts s p with
      | (false, s1) => s1
      | (true, s1) =>
        let matched' := matched ++ [p]
        match nn with
        | none => cb.accept s1 matched' true (cond res (some ⟨p, none⟩) none)
        | some child =>
          let s2 := cb.accept s1 matched' child.isWord
            (cond res (some ⟨p, some child⟩) none)
          match cb.isAccepting s2 with
          | true => fromNode cb res child matched' s2
          | false => s2
termination_by 2 * sizeOf ns

end

/-- `Navigation.Go`: start from the root with an empty `matched` when the
navigator is accepting at all. -/
def navGo (cb : NavCallbacks σ) (res : Bool) (root : Node) (s : σ) : σ :=
  if cb.isAccepting s then fromNode cb res root [] s else s

/-- `Navigation.Resume`: re-enter at a saved `navState`. -/
def navResume (cb : NavCallbacks σ) (res : Bool) (ns : NavState)
    (matched : List Char) (s : σ) : σ :=
  if cb.isAccepting s then fromEdge cb res ns matched s else s

/-- `DAWG.Resume` (`dawg.go`): reset the saved state's prefix to
`NoPrefix`, then hand over to `Navigation.Resume` on a fresh (therefore
non-resumable) `Navigation`. -/
def dawgResume (cb : NavCallbacks σ) (ns : NavState)
    (matched : List Char) (s : σ) : σ :=
  navResume cb false ⟨noPrefixChar, ns.nextNode⟩ matched s

/-! ## MatchNavigator and `DAWG.Match` / `DAWG.CrossCheck` -/

/-- The `matchItem` stack entry: `(index, chMatch, isWildcard)`. -/
structure MatchItem where
  index : Nat
  chMatch : Char
  isWildcard : Bool

/-- The `MatchNavigator` state. -/
structure MatchNav where
  pattern : List Char
  lenP : Nat
  index : Nat
  chMatch : Char
  isWildcard : Bool
  stack : List MatchItem
  results : List (List Char)

/-- `MatchNavigator.Init`.  The Go code reads `pattern[0]`, which panics
on an empty pattern; `Match` is only ever called with non-empty
patterns, so the default `'?'` of `headD` is never used. -/
def matchInit (pat : List Char) : MatchNav :=
  let ch := pat.headD '?'
  ⟨pat, pat.length, 0, ch, ch = '*', [], []⟩

/-- The `MatchNavigator` methods, as navigation callbacks. -/
def matchCB : NavCallbacks MatchNav where
  isAccepting s := s.index < s.lenP
  accepts s c :=
    if c ≠ s.chMatch ∧ ¬s.isWildcard then (false, s)
    else
      let i := s.index + 1
      if i < s.lenP then
        let ch := s.pattern.getD i '?'
        (true, { s with index := i, chMatch := ch, isWildcard := ch = '*' })
      else (true, { s with index := i })
  accept s matched final _ :=
    if final ∧ s.index = s.lenP then { s with results := s.results ++ [matched] }
    else s
  pushEdge s c :=
    if c ≠ s.chMatch ∧ ¬s.isWildcard then (false, s)
    else (true, { s with stack := ⟨s.index, s.chMatch, s.isWildcard⟩ :: s.stack })
  popEdge s :=
    match s.stack with
    | [] => (false, s)   -- the engine always pairs pops with pushes
    | mt :: rest =>
      (mt.isWildcard,
       { s with index := mt.index, chMatch := mt.chMatch,
                isWildcard := mt.isWildcard, stack := rest })

/-- `DAWG.Match`: all words in the DAWG matching a pattern with `'*'`
wildcards. -/
def dawgMatch (root : Node) (pat : List Char) : List (List Char) :=
  (navGo matchCB false root (matchInit pat)).results

/-- `DAWG.CrossCheck` (without the transparent memo cache): match
`prev + "*" + after` and collect the letter standing at the wildcard
position of every match. -/
def crossCheckD (root : Node) (prev after : List Char) : List Char :=
  let lenLeft := prev.length
  let key := prev ++ '*' :: after
  (dawgMatch root key).map (fun m => m.getD lenLeft '?')

/-- The specification's matching relation for `DAWG.Match` patterns: same
length, and each pattern position is either the wildcard or the word's
letter. -/
def matchesPat : List Char → List Char → Bool
  | [], [] => true
  | p :: ps, c :: cs => (p = '*' || p = c) && matchesPat ps cs
  | _, _ => false

/-- The invariant tying a `MatchNavigator` state to position `k` of the
fixed pattern: the cached `chMatch`/`isWildcard` mirror `pattern[k]`. -/
def matchInv (pat : List Char) (k : Nat) (s : MatchNav) : Prop :=
  s.pattern = pat ∧ s.lenP = pat.length ∧ s.index = k ∧ k < pat.length ∧
    s.chMatch = pat.getD k '?' ∧ s.isWildcard = decide (pat.getD k '?' = '*')

/-- All bookkeeping fields of a `MatchNavigator` state restored after a
sub-run (only `results` may have grown). -/
def sameFrame (s s' : MatchNav) : Prop :=
  s'.pattern = s.pattern ∧ s'.lenP = s.lenP ∧ s'.index = s.index ∧
    s'.chMatch = s.chMatch ∧ s'.isWildcard = s.isWildcard ∧ s'.stack = s.stack

/-- The words recorded by a Match sub-run entered at node `n` with prefix
`matched` consumed up to pattern position `k`: `matched` extended by a
word-path of `n` matching the rest of the pattern. -/
def tailWords (n : Node) (pat : List Char) (k : Nat)
    (matched w : List Char) : Prop :=
  ∃ suffix, w = matched ++ suffix ∧ memW n suffix = true ∧
    matchesPat (pat.drop k) suffix = true

/-- The same, decomposed along the first edge taken out of an edge
list. -/
def edgeWords (es : List (Char × Node)) (pat : List Char) (k : Nat)
    (matched w : List Char) : Prop :=
  ∃ c child, lookupEdge es c = some child ∧
    (pat.getD k '?' = '*' ∨ pat.getD k '?' = c) ∧
    tailWords child pat (k + 1) (matched ++ [c]) w

/-! ## ExtendAfter / ExtendRight navigators: `IsAccepting`

Only the fields read by `IsAccepting` are modelled: the current `index`,
the remaining `rack` string, and the axis's `squares` pointer array
(`[15]*Square`): the outer `Option` is the pointer (boundary `nil`s never
occur after `Axis.Init`, which fills all 15 entries), the inner
`Option Tile` is the square's `Tile` field. -/

/-- The state read by the two `IsAccepting` variants. -/
structure ErnState where
  index : Nat
  rack : List Char
  squares : List (Option (Option Tile))

/-- `ExtendAfterNavigator.IsAccepting` of the current revision
(`part_004`): `index < BoardSize` and (rack non-empty, or the square at
`index` holds a tile: `ean.axis.squares[ean.index].Tile != nil`). -/
def eanIsAccepting (s : ErnState) : Bool :=
  if BoardSize ≤ s.index then false
  else 0 < s.rack.length || ((s.squares.getD s.index none).getD none).isSome

/-- `ExtendRightNavigator.IsAccepting` of the `navigator.go` revision
(also its `ExtendAfterNavigator.IsAccepting`): `index < BoardSize` and
(rack non-empty, or `ern.axis.squares[ern.index] != nil` — a test on the
square *pointer*, not on its `Tile`). -/
def ernIsAccepting (s : ErnState) : Bool :=
  if BoardSize ≤ s.index then false
  else 0 < s.rack.length || (s.squares.getD s.index none).isSome

/-! ## `Axis.Init` (`part_004` current revision, and the `move.go`
revision) -/

/-- The per-turn `GameState` snapshot fields consumed by `Axis.Init`. -/
structure GameStateV where
  dawg : Node
  board : Board
  rack : Rack

/-- The full alphabet substituted for the rack when it holds a blank
(the literal `['a' … 'z']` slice in `Axis.Init`). -/
def alphabetList : List Char :=
  ['a','b','c','d','e','f','g','h','i','j','k','l','m',
   'n','o','p','q','r','s','t','u','v','w','x','y','z']

/-- `Axis.CrossCheck`: no perpendicular fragments means no constraint
(return the rack); otherwise ask the DAWG. -/
def axisCrossCheckAt (gs : GameStateV) (horizontal : Bool) (p : Pos) :
    List Char :=
  let fr := gs.board.crossWordFragments p (!horizontal)
  if fr.1.isEmpty && fr.2.isEmpty then rackLetters gs.rack
  else crossCheckD gs.dawg fr.1 fr.2

/-- The result of `Axis.Init` (the `squares` array is recomputed from
the board on demand and not stored). -/
structure AxisV where
  horizontal : Bool
  rack : List Char
  isAnchor : List Bool
  crossCheckLetters : List (List Char)

/-- The square of axis `index` at offset `i`. -/
def axisSquarePos (index i : Nat) (horizontal : Bool) : Pos :=
  if horizontal then ⟨index, i⟩ else ⟨i, index⟩

/-- The anchor / cross-check-letters pair computed for one axis offset by
the current revision of `Axis.Init` (`part_004`, the variant wired to
`game.go`'s `GameState`): on an empty board the center square is marked
on *both* the row-7 and the column-7 axes (no `!horizontal` condition),
and a blank in the rack expands the letter sets. -/
def axisInitEntry (gs : GameStateV) (index : Nat) (horizontal : Bool)
    (i : Nat) : Bool × List Char :=
  let rackR := rackLetters gs.rack
  let p := axisSquarePos index i horizontal
  match gs.board.tileAt p with
  | some _ => (false, [])
  | none =>
    let isA :=
      if (gs.board.tileAt ⟨BoardCenter, BoardCenter⟩).isNone then
        index = BoardCenter && i = BoardCenter
      else gs.board.isAnchorSq p
    if !isA then
      if rackR.contains '*' then (false, alphabetList)
      else (false, rackR)
    else
      let ccl :=
        if rackR.length ≠ 0 then
          let playable := axisCrossCheckAt gs horizontal p
          if rackR.contains '*' then playable
          else playable.filter (fun l => rackR.contains l)
        else []
      (true, ccl)

/-- `Axis.Init` of the current revision. -/
def axisInit (gs : GameStateV) (index : Nat) (horizontal : Bool) : AxisV :=
  let entries := (List.range BoardSize).map (axisInitEntry gs index horizontal)
  ⟨horizontal, rackLetters gs.rack, entries.map Prod.fst, entries.map Prod.snd⟩

/-- The anchor / cross-check-letters pair computed for one axis offset by
the `move.go` revision of `Axis.Init` (same file as the first `part_004`
`Axis`): the empty-board special case additionally requires
`!horizontal`, and there is no blank expansion of the letter sets. -/
def axisInitVertEntry (gs : GameStateV) (index : Nat) (horizontal : Bool)
    (i : Nat) : Bool × List Char :=
  let rackR := rackLetters gs.rack
  let p := axisSquarePos index i horizontal
  match gs.board.tileAt p with
  | some _ => (false, [])
  | none =>
    let isA :=
      if (gs.board.tileAt ⟨BoardCenter, BoardCenter⟩).isNone then
        index = BoardCenter && i = BoardCenter && !horizontal
      else gs.board.isAnchorSq p
    if !isA then (false, rackR)
    else
      let ccl :=
        if rackR.length ≠ 0 then
          (axisCrossCheckAt gs horizontal p).filter (fun l => rackR.contains l)
        else []
      (true, ccl)

/-- `Axis.Init` of the `move.go` revision. -/
def axisInitVert (gs : GameStateV) (index : Nat) (horizontal : Bool) :
    AxisV :=
  let entries := (List.range BoardSize).map (axisInitVertEntry gs index horizontal)
  ⟨horizontal, rackLetters gs.rack, entries.map Prod.fst, entries.map Prod.snd⟩

/-! ## Moves (`move.go` / `part_003` revision, the one whose `Apply`
returns an error and whose covers carry a `Cover` struct) -/

/-- `BingoBonus`. -/
def BingoBonus : Nat := 50

/-- `MaxPassMoves`. -/
def MaxPassMoves : Nat := 6

/-- `Cover`: `letter` is the source letter (`'*'` for a blank), `actual`
the letter it stands for. -/
structure Cover where
  letter : Char
  actual : Char
  deriving Repr, DecidableEq

/-- `TileMove` (`Start`/`End`/`Covers`/`Horizontal`/`Word`/`CachedScore`/
`ValidateWords`; the Go `End` field is called `stop` because `end` is
reserved).  The covers map becomes an association list. -/
structure TileMoveV where
  start : Pos
  stop : Pos
  covers : List (Pos × Cover)
  horizontal : Bool
  word : List Char
  cachedScore : Option Nat
  validateWords : Bool
  deriving Repr, DecidableEq

/-- `move.Covers[pos]` lookup. -/
def coversLookup (cs : List (Pos × Cover)) (p : Pos) : Option Cover :=
  (cs.find? (fun e => e.1 = p)).map Prod.snd

/-- The four `Move` implementations, as one sum type standing for the Go
interface dispatch. -/
inductive MoveV where
  | tile (tm : TileMoveV)
  | pass
  | exchange (letters : List Char)
  | final (opponentRack : List Char) (multiplyFactor : Nat)
  deriving Repr, DecidableEq

/-- A player: only the rack and the score are relevant to the engine. -/
structure PlayerV where
  rack : Rack
  score : Nat
  deriving Repr, DecidableEq

/-- `MoveItem`. -/
structure MoveItemV where
  rackBefore : List Char
  move : MoveV
  deriving Repr, DecidableEq

/-- `Game` (the shared read-only DAWG handle is omitted: none of the
operations modelled here consult it). -/
structure GameV where
  player0 : PlayerV
  player1 : PlayerV
  board : Board
  bag : Bag
  moveList : List MoveItemV
  numPassMoves : Nat
  deriving Repr, DecidableEq

/-- `Game.PlayerToMoveIndex`: `len(MoveList) % 2`. -/
def playerToMoveIndex (g : GameV) : Nat := g.moveList.length % 2

/-- `Game.Players[i]` for `i ∈ {0, 1}`. -/
def getPlayer (g : GameV) (i : Nat) : PlayerV :=
  if i = 0 then g.player0 else g.player1

/-- Write back a player's rack. -/
def setPlayerRack (g : GameV) (i : Nat) (r : Rack) : GameV :=
  if i = 0 then { g with player0 := { g.player0 with rack := r } }
  else { g with player1 := { g.player1 with rack := r } }

/-- Add to a player's score. -/
def addScore (g : GameV) (i : Nat) (sc : Nat) : GameV :=
  if i = 0 then { g with player0 := { g.player0 with score := g.player0.score + sc } }
  else { g with player1 := { g.player1 with score := g.player1.score + sc } }

/-- The outcome of a Go method that may return an error (`err`) or crash
on a nil-pointer dereference (`panicked`). -/
inductive ApplyOutcome (α : Type) where
  | ok (a : α)
  | err
  | panicked
  deriving Repr, DecidableEq

/-- Extract the success value of an outcome. -/
def ApplyOutcome.toOption : ApplyOutcome α → Option α
  | .ok a => some a
  | _ => none

/-- Replace the first tile carrying `letter` (the in-place write
`tile.Letter = …` through the pointer `Rack.GetTile` returned). -/
def rackSetFirst (r : Rack) (letter : Char) (t : Tile) : Rack :=
  match r with
  | [] => []
  | x :: rest =>
    if x.letter = letter then t :: rest else x :: rackSetFirst rest letter t

/-- `Game.PlayTile`: remove the tile from the rack by its letter, then
place it on the board; `none` models either returned error. -/
def playTile (r : Rack) (b : Board) (t : Tile) (pos : Pos) :
    Option (Rack × Board) :=
  match rackRemove r t.letter with
  | none => none
  | some r' => (b.placeTile t pos).map (fun b' => (r', b'))

/-- The cover loop of `TileMove.Apply` (`part_003`): for each cover,
`rack.GetTile(cover.Letter)`; *before checking the returned error*, a
blank cover writes the uppercased actual letter onto the tile the
returned pointer refers to — when `GetTile` failed that pointer is `nil`
and the write panics.  (The write goes through the pointer into the
rack's slice, so the rack tile itself is rewritten, modelled by
`rackSetFirst`.)  Then `game.PlayTile` removes the tile from the rack by
its — possibly just rewritten — letter and places it on the board; its
errors are returned. -/
def tileApplyCovers (r : Rack) (b : Board) :
    List (Pos × Cover) → ApplyOutcome (Rack × Board)
  | [] => .ok (r, b)
  | (pos, cover) :: rest =>
    match rackGetTile r cover.letter with
    | none => if cover.letter = '*' then .panicked else .err
    | some t =>
      if cover.letter = '*' then
        let t' : Tile := ⟨toUpperChar cover.actual, t.value⟩
        match playTile (rackSetFirst r cover.letter t') b t' pos with
        | none => .err
        | some (r', b') => tileApplyCovers r' b' rest
      else
        match playTile r b t pos with
        | none => .err
        | some (r', b') => tileApplyCovers r' b' rest

/-- `TileMove.Apply`: play every cover, then `rack.Fill(bag)` and reset
`NumPassMoves` to zero.  (On an error Go returns with the game already
partially mutated; no property stated here looks at a failed apply's
state, so the partial state is not kept.) -/
def tileMoveApply (g : GameV) (tm : TileMoveV) : ApplyOutcome GameV :=
  let idx := playerToMoveIndex g
  match tileApplyCovers (getPlayer g idx).rack g.board tm.covers with
  | .panicked => .panicked
  | .err => .err
  | .ok (r, b) =>
    let rb := rackFill r g.bag
    .ok { setPlayerRack g idx rb.1 with board := b, bag := rb.2, numPassMoves := 0 }

/-- The removal loop of `ExchangeMove.Apply`. -/
def exchangeApplyLoop (r : Rack) :
    List Char → ApplyOutcome (Rack × List Tile)
  | [] => .ok (r, [])
  | c :: rest =>
    match rackGetTile r c with
    | none => .err
    | some t =>
      match rackRemove r t.letter with
      | none => .err
      | some r' =>
        match exchangeApplyLoop r' rest with
        | .ok (r'', ts) => .ok (r'', t :: ts)
        | .err => .err
        | .panicked => .panicked

/-- `ExchangeMove.Apply`: remove the listed tiles, refill the rack from
the bag, only then return the removed tiles to the bag, and increment
`NumPassMoves`. -/
def exchangeApply (g : GameV) (letters : List Char) : ApplyOutcome GameV :=
  let idx := playerToMoveIndex g
  match exchangeApplyLoop (getPlayer g idx).rack letters with
  | .panicked => .panicked
  | .err => .err
  | .ok (r, ts) =>
    let rb := rackFill r g.bag
    .ok { setPlayerRack g idx rb.1 with
          bag := ts.foldl bagReturn rb.2,
          numPassMoves := g.numPassMoves + 1 }

/-- The rack-membership loop of `ExchangeMove.IsValid`: each letter must
occur in what is left of the rack string after erasing the previously
matched ones (`strings.Replace(rack, letter, "", 1)`). -/
def lettersAllInRack : List Char → List Char → Bool
  | [], _ => true
  | c :: rest, rackStr => rackStr.contains c && lettersAllInRack rest (rackStr.erase c)

/-- `ExchangeMove.IsValid`: exchange allowed by the bag, between 1 and
`RackSize` letters, and all of them present in the rack. -/
def exchangeIsValid (g : GameV) (letters : List Char) : Bool :=
  bagExchangeAllowed g.bag &&
    (1 ≤ letters.length && letters.length ≤ RackSize) &&
    lettersAllInRack letters (rackLetters (getPlayer g (playerToMoveIndex g)).rack)

/-- `FinalMove.Score`: the sum of the stored rack's tile values times the
multiply factor. -/
def finalMoveScore (opponentRack : List Char) (multiplyFactor : Nat) : Nat :=
  (opponentRack.map tileValue).sum * multiplyFactor

/-- One step of the main scoring walk of `TileMove.Score` (`part_003`):
returns the accumulated `(letter score, cross score, word multiplier)`
triple, or `none` where the Go code would dereference the nil `Tile` of
an uncovered empty square.  The walk advances by `(rowIncr, colIncr)`
until `pos.Row >= End.Row && pos.Col >= End.Col`; the fuel (2·15 at the
top call) bounds the iterations of any in-bounds walk. -/
def tileMoveScoreLoop (b : Board) (tm : TileMoveV) (rowIncr colIncr : Nat) :
    Pos → Nat → Option (Nat × Nat × Nat)
  | _, 0 => none
  | pos, fuel + 1 =>
    let contribution :=
      match coversLookup tm.covers pos with
      | some cover =>
        let sc := tileValue cover.letter * letterMultiplier pos
        let cr := b.crossScore pos (!tm.horizontal)
        some (sc, if cr.1 then (cr.2 + sc) * wordMultiplier pos else 0,
              wordMultiplier pos)
      | none =>
        match b.tileAt pos with
        | some t => some (t.value, 0, 1)
        | none => none
    match contribution with
    | none => none
    | some (sc, cs, wm) =>
      if tm.stop.row ≤ pos.row ∧ tm.stop.col ≤ pos.col then some (sc, cs, wm)
      else
        match tileMoveScoreLoop b tm rowIncr colIncr
            ⟨pos.row + rowIncr, pos.col + colIncr⟩ fuel with
        | none => none
        | some (sc', cs', wm') => some (sc + sc', cs + cs', wm * wm')

/-- `TileMove.Score` (`part_003`): fragments before `Start` and after
`End` at face value, the main walk with letter/word multipliers and
cross scores, then `score*multiplier + crossScore` plus the bingo bonus
when all `RackSize` tiles were laid down.  `none` models the Go panic on
a malformed move (an uncovered empty square inside the range). -/
def tileMoveScoreFresh (b : Board) (tm : TileMoveV) : Option Nat :=
  let dirBefore := if tm.horizontal then Direction.left else Direction.above
  let dirAfter := if tm.horizontal then Direction.right else Direction.below
  let rowIncr := if tm.horizontal then 0 else 1
  let colIncr := if tm.horizontal then 1 else 0
  let beforeSum := ((b.tileFragment tm.start dirBefore).map Tile.value).sum
  match tileMoveScoreLoop b tm rowIncr colIncr tm.start (2 * BoardSize) with
  | none => none
  | some (mainSum, crossSum, mult) =>
    let afterSum := ((b.tileFragment tm.stop dirAfter).map Tile.value).sum
    let base := (beforeSum + mainSum + afterSum) * mult + crossSum
    some (if tm.covers.length = RackSize then base + BingoBonus else base)

/-- `TileMove.Score` with its memoisation: a cached score is returned as
is (the cache write itself is invisible to a pure reader). -/
def tileMoveScore (b : Board) (tm : TileMoveV) : Option Nat :=
  match tm.cachedScore with
  | some s => some s
  | none => tileMoveScoreFresh b tm

/-- `Move.Score` dispatch (`PassMove` and `ExchangeMove` score 0). -/
def moveScore (g : GameV) : MoveV → Option Nat
  | .tile tm => tileMoveScore g.board tm
  | .pass => some 0
  | .exchange _ => some 0
  | .final r f => some (finalMoveScore r f)

/-- `Move.Apply` dispatch (`PassMove` increments the pass counter,
`FinalMove.Apply` does nothing). -/
def moveApply (g : GameV) : MoveV → ApplyOutcome GameV
  | .tile tm => tileMoveApply g tm
  | .pass => .ok { g with numPassMoves := g.numPassMoves + 1 }
  | .exchange letters => exchangeApply g letters
  | .final _ _ => .ok g

/-- `Game.IsOver`: at least one move was played, and either six
consecutive pass moves accumulated or the player who made the last move
has an empty rack. -/
def gameIsOver (g : GameV) : Bool :=
  let i := g.moveList.length
  if i = 0 then false
  else if g.numPassMoves = MaxPassMoves then true
  else ((getPlayer g (1 - i % 2)).rack).isEmpty

/-- `Game.scoreMove`: score the move for the *current* player-to-move,
then append the move item (thereby flipping the player to move).
`none` stands for a panic inside `TileMove.Score`. -/
def scoreMove (g : GameV) (rackBefore : List Char) (mv : MoveV) : Option GameV :=
  match moveScore g mv with
  | none => none
  | some sc =>
    let g' := addScore g (playerToMoveIndex g) sc
    some { g' with moveList := g'.moveList ++ [⟨rackBefore, mv⟩] }

/-- `Game.ApplyValid`: capture the player to move and the rack string,
apply the move, score it and append it, and if the game is then over
append the two `FinalMove`s.  `rackOpp` is read from
`Players[1-PlayerToMoveIndex()]` *after* the move was appended. -/
def applyValid (g : GameV) (mv : MoveV) : ApplyOutcome GameV :=
  let ptm := playerToMoveIndex g
  let rackBefore := rackLetters (getPlayer g ptm).rack
  match moveApply g mv with
  | .panicked => .panicked
  | .err => .err
  | .ok g1 =>
    match scoreMove g1 rackBefore mv with
    | none => .panicked
    | some g2 =>
      if gameIsOver g2 then
        let rackPlayer := rackLetters (getPlayer g2 ptm).rack
        let rackOpp := rackLetters (getPlayer g2 (1 - playerToMoveIndex g2)).rack
        let factor := if 0 < rackPlayer.length then 1 else 2
        match scoreMove g2 rackPlayer (.final rackOpp factor) with
        | none => .panicked
        | some g3 =>
          match scoreMove g3 rackOpp (.final rackPlayer factor) with
          | none => .panicked
          | some g4 => .ok g4
      else .ok g2

/-! ## The specification's scoring formula (spec §4.4)

A non-operational restatement of the claimed score: sums and products
over the list of main-word positions, for comparison with the walking
implementation `tileMoveScore`. -/

/-- The positions of the main word, from `start` to `stop` along the
move's axis. -/
def specMainPositions (tm : TileMoveV) : List Pos :=
  if tm.horizontal then
    (List.range (tm.stop.col + 1 - tm.start.col)).map
      (fun k => ⟨tm.start.row, tm.start.col + k⟩)
  else
    (List.range (tm.stop.row + 1 - tm.start.row)).map
      (fun k => ⟨tm.start.row + k, tm.start.col⟩)

/-- Per-square letter contribution: a placed letter at its value times
the square's letter multiplier, a pre-existing tile at face value. -/
def specSquareScore (b : Board) (tm : TileMoveV) (p : Pos) : Nat :=
  match coversLookup tm.covers p with
  | some cover => tileValue cover.letter * letterMultiplier p
  | none => ((b.tileAt p).map Tile.value).getD 0

/-- Per-square word-multiplier contribution: covered squares contribute
their word multiplier, others contribute 1. -/
def specSquareWordMult (tm : TileMoveV) (p : Pos) : Nat :=
  if (coversLookup tm.covers p).isSome then wordMultiplier p else 1

/-- Per-square cross-word contribution: where a covered square has a
perpendicular crossing, the crossing tiles' values plus the placed
letter's contribution, times the square's word multiplier. -/
def specSquareCross (b : Board) (tm : TileMoveV) (p : Pos) : Nat :=
  match coversLookup tm.covers p with
  | some cover =>
    let cr := b.crossScore p (!tm.horizontal)
    if cr.1 then (cr.2 + tileValue cover.letter * letterMultiplier p) * wordMultiplier p
    else 0
  | none => 0

/-- The claimed score: `(main_sum * word_mul) + cross_score + bingo`,
the main sum taken over the whole main word including the board
fragments beyond both ends, `bingo = 50` iff all seven tiles were
placed. -/
def specTileMoveScore (b : Board) (tm : TileMoveV) : Nat :=
  let dirBefore := if tm.horizontal then Direction.left else Direction.above
  let dirAfter := if tm.horizontal then Direction.right else Direction.below
  let ps := specMainPositions tm
  let mainSum := ((b.tileFragment tm.start dirBefore).map Tile.value).sum
    + (ps.map (specSquareScore b tm)).sum
    + ((b.tileFragment tm.stop dirAfter).map Tile.value).sum
  let wordMul := (ps.map (specSquareWordMult tm)).prod
  let crossSum := (ps.map (specSquareCross b tm)).sum
  mainSum * wordMul + crossSum
    + (if tm.covers.length = RackSize then BingoBonus else 0)

/-! ## Concrete instances used by the witnesses and counterexamples -/

/-- A DAWG over `{"cat", "cats", "cab"}` (scenario S1 of the spec). -/
def catDawg : Node :=
  buildDawg [['c','a','t'], ['c','a','t','s'], ['c','a','b']]

/-- A one-word DAWG over `{"ab"}`. -/
def abDawg : Node := buildDawg [['a','b']]

/-- A play-out end position: player 0 (to move) holds a single `d`,
player 1 holds a `z` (worth 10), the bag is empty, the board is empty,
no moves yet. -/
def gameC1 : GameV :=
  ⟨⟨[⟨'d', 2⟩], 0⟩, ⟨[⟨'z', 10⟩], 0⟩, Board.empty, [], [], 0⟩

/-- Player 0's finishing move: the single `d` onto the center square. -/
def moveC1 : TileMoveV :=
  ⟨⟨7, 7⟩, ⟨7, 7⟩, [(⟨7, 7⟩, ⟨'d', 'd'⟩)], true, ['d'], none, false⟩

/-- An `ExtendAfter`/`ExtendRight` state: at the start of an axis whose
15 square pointers are all set (as `Axis.Init` leaves them) and whose
squares are all empty, with an exhausted rack. -/
def ernStateC4 : ErnState := ⟨0, [], List.replicate 15 (some none)⟩

/-- A first-move game state: empty board, rack `act`, the `catDawg`
lexicon. -/
def gsC5 : GameStateV := ⟨catDawg, Board.empty, [⟨'a', 1⟩, ⟨'c', 3⟩, ⟨'t', 1⟩]⟩

/-- The spec's S3 scoring scenario: "cat" horizontally on row 7,
columns 6–8, on an empty board. -/
def moveCat : TileMoveV :=
  ⟨⟨7, 6⟩, ⟨7, 8⟩,
   [(⟨7, 6⟩, ⟨'c', 'c'⟩), (⟨7, 7⟩, ⟨'a', 'a'⟩), (⟨7, 8⟩, ⟨'t', 't'⟩)],
   true, ['c', 'a', 't'], none, false⟩

/-- A mid-game position for the pass/exchange claims: both players hold
one tile, the bag holds 7 `e`s, two moves already played, two
consecutive pass moves so far. -/
def gameC8 : GameV :=
  ⟨⟨[⟨'a', 1⟩], 3⟩, ⟨[⟨'b', 3⟩], 5⟩, Board.empty, List.replicate 7 ⟨'e', 1⟩,
   [⟨['a'], .pass⟩, ⟨['b'], .pass⟩], 2⟩

/-- A position in which the bag allows an exchange. -/
def gameC9 : GameV :=
  ⟨⟨[⟨'a', 1⟩, ⟨'b', 3⟩], 0⟩, ⟨[], 0⟩, Board.empty,
   List.replicate 7 ⟨'e', 1⟩, [], 0⟩

/-- A rack holding a blank, for the blank-cover apply scenario. -/
def gameC10 : GameV :=
  ⟨⟨[⟨'*', 0⟩, ⟨'a', 1⟩], 0⟩, ⟨[], 0⟩, Board.empty, [], [], 0⟩

/-- A blank cover (`source '*'`, played as `c`) on the center square. -/
def moveC10 : TileMoveV :=
  ⟨⟨7, 7⟩, ⟨7, 7⟩, [(⟨7, 7⟩, ⟨'*', 'c'⟩)], true, ['c'], none, false⟩

/-- A rack without a blank, for the failing blank-cover scenario. -/
def gameC10b : GameV :=
  ⟨⟨[⟨'a', 1⟩], 0⟩, ⟨[], 0⟩, Board.empty, [], [], 0⟩

/-- A position for the refill claim: the mover holds `ab`, the bag holds
seven `e`s. -/
def gameC3 : GameV :=
  ⟨⟨[⟨'a', 1⟩, ⟨'b', 3⟩], 0⟩, ⟨[⟨'z', 10⟩], 0⟩, Board.empty,
   List.replicate 7 ⟨'e', 1⟩, [], 0⟩

/-- The mover plays the `a` onto the center square. -/
def moveC3 : TileMoveV :=
  ⟨⟨7, 7⟩, ⟨7, 7⟩, [(⟨7, 7⟩, ⟨'a', 'a'⟩)], true, ['a'], none, false⟩

/-- The game after `moveC3` was applied (evaluated from the model). -/
def gameC3After : GameV :=
  ((applyValid gameC3 (.tile moveC3)).toOption).getD gameC3

/-- The tile move used by the pass-counter witness. -/
def moveC8 : TileMoveV :=
  ⟨⟨7, 7⟩, ⟨7, 7⟩, [(⟨7, 7⟩, ⟨'a', 'a'⟩)], true, ['a'], none, false⟩

/-- `gameC8` after the tile move / a pass / an exchange. -/
def gameC8Tile : GameV :=
  ((moveApply gameC8 (.tile moveC8)).toOption).getD gameC8

/-- `gameC8` after a pass move. -/
def gameC8Pass : GameV :=
  ((moveApply gameC8 .pass).toOption).getD gameC8

/-- `gameC8` after exchanging the single `a`. -/
def gameC8Exch : GameV :=
  ((moveApply gameC8 (.exchange ['a'])).toOption).getD gameC8

/-! ## Helper lemmas -/

/-- `Bag.DrawTile` fails exactly on the empty bag. -/
theorem bagDraw_eq_none {b : Bag} : bagDraw b = none ↔ b = [] := by
  match b with
  | [] => simp [bagDraw]
  | [t] => simp [bagDraw]
  | t :: x :: rest => simp [bagDraw]

/-- A successful draw shrinks the bag by exactly one tile. -/
theorem bagDraw_length {b : Bag} {t : Tile} {b' : Bag}
    (h : bagDraw b = some (t, b')) : b'.length + 1 = b.length := by
  match b with
  | [] => simp [bagDraw] at h
  | [x] =>
    simp [bagDraw] at h
    simp [h.2]
  | x :: y :: rest =>
    simp [bagDraw] at h
    obtain ⟨-, h2⟩ := h
    subst h2
    simp

/-- The fill loop, run with enough fuel from a legal rack: the final rack
length is `min RackSize (rack + bag)` and the bag shrinks by exactly the
number of appended tiles. -/
theorem rackFillGo_length (fuel : Nat) (r : Rack) (b : Bag)
    (hfuel : b.length ≤ fuel) (hr : r.length ≤ RackSize) :
    (rackFillGo r b fuel).1.length = min RackSize (r.length + b.length) ∧
    (rackFillGo r b fuel).2.length +
      ((rackFillGo r b fuel).1.length - r.length) = b.length := by
  induction fuel generalizing r b with
  | zero =>
    have hb : b = [] := by
      cases b with
      | nil => rfl
      | cons x rest => simp at hfuel
    subst hb
    simp only [rackFillGo, List.length_nil, Nat.add_zero, Nat.min_def]
    constructor
    · split_ifs <;> omega
    · omega
  | succ n ih =>
    by_cases hfull : r.length = RackSize
    · have heq : rackFillGo r b (n + 1) = (r, b) := by
        rw [rackFillGo, if_pos hfull]
      rw [heq, Nat.min_def]
      dsimp only
      constructor
      · split_ifs <;> omega
      · omega
    · cases hdraw : bagDraw b with
      | none =>
        have hb : b = [] := bagDraw_eq_none.mp hdraw
        subst hb
        have heq : rackFillGo r [] (n + 1) = (r, []) := by
          rw [rackFillGo, if_neg hfull, hdraw]
        rw [heq, Nat.min_def]
        dsimp only
        constructor
        · simp only [List.length_nil, Nat.add_zero]
          split_ifs <;> omega
        · simp only [List.length_nil]
          omega
      | some tb =>
        obtain ⟨t, b'⟩ := tb
        have heq : rackFillGo r b (n + 1) = rackFillGo (r ++ [t]) b' n := by
          rw [rackFillGo, if_neg hfull, hdraw]
        have hlen := bagDraw_length hdraw
        have h1 : b'.length ≤ n := by omega
        have h2 : (r ++ [t]).length ≤ RackSize := by
          simp only [List.length_append, List.length_cons, List.length_nil]
          omega
        have hrec := ih (r ++ [t]) b' h1 h2
        rw [heq, Nat.min_def] at *
        simp only [List.length_append, List.length_cons, List.length_nil] at hrec
        constructor
        · split_ifs at hrec ⊢ <;> omega
        · split_ifs at hrec ⊢ <;> omega

/-- `Rack.GetTile` succeeds exactly when the letter occurs on the rack. -/
theorem rackGetTile_isSome_iff {r : Rack} {c : Char} :
    (rackGetTile r c).isSome ↔ c ∈ rackLetters r := by
  induction r with
  | nil => simp [rackGetTile, rackLetters]
  | cons t rest ih =>
    by_cases h : t.letter = c
    · simp [rackGetTile, rackLetters, List.find?, h]
    · simp [rackGetTile, rackLetters, List.find?, h, Ne.symm h, ih]

/-- `Rack.GetTile` returns a tile actually carrying the letter. -/
theorem rackGetTile_letter {r : Rack} {c : Char} {t : Tile}
    (h : rackGetTile r c = some t) : t.letter = c := by
  have := List.find?_some h
  simpa using this

/-- `Rack.Remove` succeeds exactly when the letter occurs on the rack. -/
theorem rackRemove_isSome_iff {r : Rack} {c : Char} :
    (rackRemove r c).isSome ↔ c ∈ rackLetters r := by
  induction r with
  | nil => simp [rackRemove, rackLetters]
  | cons t rest ih =>
    by_cases h : t.letter = c
    · simp [rackRemove, rackLetters, h]
    · simpa [rackRemove, rackLetters, h, Ne.symm h] using ih

/-- A successful `Rack.Remove` shortens the rack by one. -/
theorem rackRemove_length {r r' : Rack} {c : Char}
    (h : rackRemove r c = some r') : r'.length + 1 = r.length := by
  induction r generalizing r' with
  | nil => simp [rackRemove] at h
  | cons t rest ih =>
    by_cases hl : t.letter = c
    · simp [rackRemove, hl] at h
      subst h
      rfl
    · simp [rackRemove, hl] at h
      obtain ⟨r'', hr'', hcons⟩ := h
      subst hcons
      have := ih hr''
      simp
      omega

/-- Letter counts after a successful `Rack.Remove`: one occurrence of the
removed letter disappears, all other letters are untouched. -/
theorem rackRemove_count {r r' : Rack} {c : Char}
    (h : rackRemove r c = some r') (x : Char) :
    (rackLetters r').count x + (if c = x then 1 else 0)
      = (rackLetters r).count x := by
  induction r generalizing r' with
  | nil => simp [rackRemove] at h
  | cons t rest ih =>
    by_cases hl : t.letter = c
    · subst hl
      rw [rackRemove, if_pos rfl, Option.some.injEq] at h
      subst h
      simp only [rackLetters, List.map_cons, List.count_cons, beq_iff_eq]
    · rw [rackRemove, if_neg hl] at h
      rw [Option.map_eq_some'] at h
      obtain ⟨r'', hr'', hcons⟩ := h
      subst hcons
      have := ih hr''
      simp only [rackLetters, List.map_cons, List.count_cons, beq_iff_eq] at this ⊢
      omega

/-- `rackSetFirst` preserves the rack length. -/
theorem rackSetFirst_length (r : Rack) (c : Char) (t : Tile) :
    (rackSetFirst r c t).length = r.length := by
  induction r with
  | nil => rfl
  | cons x rest ih =>
    by_cases h : x.letter = c <;> simp [rackSetFirst, h, ih]

/-- Letter counts after `rackSetFirst` when the letter is present: one
occurrence of `c` is replaced by one occurrence of `t.letter`. -/
theorem rackSetFirst_count {r : Rack} {c : Char} (t : Tile)
    (hc : c ∈ rackLetters r) (x : Char) :
    (rackLetters (rackSetFirst r c t)).count x + (if c = x then 1 else 0)
      = (rackLetters r).count x + (if t.letter = x then 1 else 0) := by
  induction r with
  | nil => simp [rackLetters] at hc
  | cons y rest ih =>
    by_cases h : y.letter = c
    · subst h
      simp only [rackSetFirst, eq_self_iff_true, if_true, rackLetters,
        List.map_cons, List.count_cons, beq_iff_eq]
      omega
    · have hc' : c ∈ rackLetters rest := by
        simp only [rackLetters, List.map_cons, List.mem_cons] at hc
        rcases hc with hc | hc
        · exact absurd hc.symm h
        · exact hc
      have hrec := ih hc'
      simp only [rackSetFirst, if_neg h, rackLetters, List.map_cons,
        List.count_cons, beq_iff_eq] at hrec ⊢
      omega

/-! ## C2: `DAWG.Resume` -/

/-- `Navigation.FromEdge` immediately returns on the `NoPrefix`
sentinel. -/
theorem fromEdge_noPrefix {σ : Type} (cb : NavCallbacks σ) (res : Bool)
    (nn : Option Node) (matched : List Char) (s : σ) :
    fromEdge cb res ⟨noPrefixChar, nn⟩ matched s = s := by
  rw [fromEdge]
  simp

/-- C2: `DAWG.Resume` never continues the navigation.  It first resets
the saved edge's prefix to `NoPrefix` and then enters
`Navigation.FromEdge`, whose first line returns on exactly that
sentinel; so for *every* navigator, every saved edge state and every
`matched` string, the navigator state comes back unchanged and no
callback that could record a move or a word is ever invoked — contrary
to the claim that resuming continues from the saved edge's next node. -/
theorem c2_dawg_resume_is_noop {σ : Type} (cb : NavCallbacks σ)
    (ns : NavState) (matched : List Char) (s : σ) :
    dawgResume cb ns matched s = s := by
  unfold dawgResume navResume
  by_cases h : cb.isAccepting s = true
  · simp [h, fromEdge_noPrefix]
  · simp [h]

/-! ## C4: `IsAccepting` of the extend-right navigators -/

/-- C4: at the start of an initialized axis (all 15 square pointers set)
whose squares are all empty and with an empty rack, the
`ExtendRightNavigator.IsAccepting` revision (`navigator.go`, which tests
the square *pointer* against nil) returns `true`, while the current
`ExtendAfterNavigator.IsAccepting` revision (`part_004`, which tests the
square's `Tile`) returns `false` as the claim demands. -/
theorem c4_is_accepting_divergence :
    ernIsAccepting ernStateC4 = true ∧ eanIsAccepting ernStateC4 = false := by
  decide

/-! ## C1: the final-move adjustment in `Game.ApplyValid` -/

/-- C1: evaluating `Game.ApplyValid` at a play-out ending — player 0
(to move, rack `d`) plays out while player 1 still holds a `z` worth
10 — shows the winner gains only the 4 points of the tile move and
**zero** from the final adjustment, and both appended `FinalMove`s carry
an *empty* opponent rack: `rackOpp` is read from
`Players[1-PlayerToMoveIndex()]` *after* the tile move was appended to
the move list, which resolves back to the finishing player's own (now
empty) rack.  The claim instead promises the winner
`2 × sum_of_values(opponent_rack) = 20`. -/
theorem c1_playout_final_moves_score_zero :
    (applyValid gameC1 (.tile moveC1)).toOption.map
        (fun g => (g.player0.score, g.player1.score, g.moveList.map MoveItemV.move))
      = some (4, 0, [.tile moveC1, .final [] 2, .final [] 2]) ∧
    finalMoveScore (rackLetters gameC1.player1.rack) 2 = 20 := by
  constructor
  · decide
  · decide

/-! ## C8: the pass counter -/

/-- C8: a successfully applied `TileMove` resets `NumPassMoves` to 0; a
`PassMove` or a successfully applied `ExchangeMove` increments it by
exactly one. -/
theorem c8_pass_counter :
    (∀ (g : GameV) (tm : TileMoveV) (g' : GameV),
        moveApply g (.tile tm) = .ok g' → g'.numPassMoves = 0) ∧
    (∀ (g g' : GameV),
        moveApply g .pass = .ok g' → g'.numPassMoves = g.numPassMoves + 1) ∧
    (∀ (g : GameV) (ls : List Char) (g' : GameV),
        moveApply g (.exchange ls) = .ok g' →
          g'.numPassMoves = g.numPassMoves + 1) := by
  refine ⟨?_, ?_, ?_⟩
  · intro g tm g' h
    simp only [moveApply] at h
    unfold tileMoveApply at h
    dsimp only at h
    split at h
    · simp at h
    · simp at h
    · simp only [ApplyOutcome.ok.injEq] at h
      subst h
      rfl
  · intro g g' h
    simp only [moveApply, ApplyOutcome.ok.injEq] at h
    subst h
    rfl
  · intro g ls g' h
    simp only [moveApply] at h
    unfold exchangeApply at h
    dsimp only at h
    split at h
    · simp at h
    · simp at h
    · simp only [ApplyOutcome.ok.injEq] at h
      subst h
      rfl

/-- Witness for C8, at `gameC8` (two moves played, two passes counted):
the three hypotheses are discharged on a concrete tile move, pass and
exchange. -/
theorem c8_pass_counter_witness :
    (moveApply gameC8 (.tile moveC8) = .ok gameC8Tile ∧
      gameC8Tile.numPassMoves = 0) ∧
    (moveApply gameC8 .pass = .ok gameC8Pass ∧
      gameC8Pass.numPassMoves = gameC8.numPassMoves + 1) ∧
    (moveApply gameC8 (.exchange ['a']) = .ok gameC8Exch ∧
      gameC8Exch.numPassMoves = gameC8.numPassMoves + 1) :=
  ⟨⟨by decide, c8_pass_counter.1 gameC8 moveC8 gameC8Tile (by decide)⟩,
   ⟨by decide, c8_pass_counter.2.1 gameC8 gameC8Pass (by decide)⟩,
   ⟨by decide, c8_pass_counter.2.2 gameC8 ['a'] gameC8Exch (by decide)⟩⟩

/-! ## C9: `ExchangeMove.IsValid` -/

/-- C9 counterexample: with seven tiles in the bag (exchange allowed)
and every (i.e. none) requested letter present in the rack, the empty
exchange is still rejected — `IsValid` also demands
`1 ≤ len(letters) ≤ RackSize`, so "it does not fail for any other
reason, such as the number of requested letters" is false. -/
theorem c9_empty_exchange_counterexample :
    exchangeIsValid gameC9 [] = false ∧
    bagExchangeAllowed gameC9.bag = true ∧
    lettersAllInRack []
      (rackLetters (getPlayer gameC9 (playerToMoveIndex gameC9)).rack) = true := by
  decide

/-- The membership loop of `ExchangeMove.IsValid` succeeds exactly on
multiset containment of the requested letters in the rack string. -/
theorem lettersAllInRack_iff {ls rs : List Char} :
    lettersAllInRack ls rs = true ↔ ∀ c, ls.count c ≤ rs.count c := by
  induction ls generalizing rs with
  | nil => simp [lettersAllInRack]
  | cons a tl ih =>
    simp only [lettersAllInRack, Bool.and_eq_true, ih]
    constructor
    · rintro ⟨hmem, hrest⟩ c
      have hmem' : a ∈ rs := by
        simpa using hmem
      have h1 : 0 < rs.count a := List.count_pos_iff.mpr hmem'
      have h2 := List.count_erase c a rs
      have hc := hrest c
      rw [h2] at hc
      have h3 := List.count_cons c a tl
      by_cases hac : a = c
      · subst hac
        simp only [beq_self_eq_true, if_true] at hc h3
        omega
      · simp only [beq_iff_eq, hac, if_false] at hc h3
        omega
    · intro hall
      constructor
      · have h0 := hall a
        have h3 := List.count_cons a a tl
        simp only [beq_self_eq_true, if_true] at h3
        have : 0 < rs.count a := by omega
        simpa using List.count_pos_iff.mp this
      · intro c
        have h0 := hall c
        have h2 := List.count_erase c a rs
        have h3 := List.count_cons c a tl
        rw [h2]
        by_cases hac : a = c
        · subst hac
          have h1 : 0 < rs.count a := by
            have h4 := List.count_cons a a tl
            simp only [beq_self_eq_true, if_true] at h4
            omega
          simp only [beq_self_eq_true, if_true] at h3 ⊢
          omega
        · simp only [beq_iff_eq, hac, if_false] at h3 ⊢
          omega

/-- C9 (amended): `ExchangeMove.IsValid` returns true iff the bag allows
an exchange, the number of requested letters is between 1 and
`RackSize`, **and** the letters are multiset-contained in the player's
rack. -/
theorem c9_exchange_is_valid_iff (g : GameV) (letters : List Char) :
    exchangeIsValid g letters = true ↔
      (bagExchangeAllowed g.bag = true ∧
       1 ≤ letters.length ∧ letters.length ≤ RackSize ∧
       ∀ c, letters.count c ≤
         (rackLetters (getPlayer g (playerToMoveIndex g)).rack).count c) := by
  unfold exchangeIsValid
  simp only [Bool.and_eq_true, decide_eq_true_eq, lettersAllInRack_iff]
  tauto

/-! ## C10: the blank-cover dereference in `TileMove.Apply` -/

/-- After replacing the first `c`-tile, the new tile's letter is on the
rack. -/
theorem rackSetFirst_mem {r : Rack} {c : Char} (t : Tile)
    (hc : c ∈ rackLetters r) :
    t.letter ∈ rackLetters (rackSetFirst r c t) := by
  induction r with
  | nil => simp [rackLetters] at hc
  | cons y rest ih =>
    by_cases h : y.letter = c
    · simp [rackSetFirst, h, rackLetters]
    · have hc' : c ∈ rackLetters rest := by
        simp only [rackLetters, List.map_cons, List.mem_cons] at hc
        rcases hc with hc | hc
        · exact absurd hc.symm h
        · exact hc
      simp only [rackSetFirst, if_neg h, rackLetters, List.map_cons,
        List.mem_cons]
      exact Or.inr (ih hc')

/-- Inversion of a successful `Game.PlayTile`: the rack-remove succeeded
with the returned rack. -/
theorem playTile_ok {r : Rack} {b : Board} {t : Tile} {pos : Pos}
    {r' : Rack} {b' : Board} (h : playTile r b t pos = some (r', b')) :
    rackRemove r t.letter = some r' := by
  unfold playTile at h
  cases hrem : rackRemove r t.letter with
  | none => rw [hrem] at h; simp at h
  | some r2 =>
    rw [hrem] at h
    cases hpl : Board.placeTile b t pos with
    | none => rw [hpl] at h; simp at h
    | some b2 =>
      rw [hpl] at h
      simp only [Option.map_some', Option.some.injEq, Prod.mk.injEq] at h
      rw [h.1]

/-- The cover loop never panics when the covers' source letters are
multiset-contained in the rack: `GetTile` then always succeeds, so the
nil dereference is unreachable (later errors surface as returned
errors, not panics). -/
theorem tileApplyCovers_no_panic (cs : List (Pos × Cover)) :
    ∀ (r : Rack) (b : Board),
      (∀ x, (cs.map (fun e => e.2.letter)).count x ≤ (rackLetters r).count x) →
      tileApplyCovers r b cs ≠ .panicked := by
  induction cs with
  | nil =>
    intro r b _ hpan
    simp [tileApplyCovers] at hpan
  | cons e rest ih =>
    obtain ⟨p, cv⟩ := e
    intro r b hcount hpan
    have hhead : cv.letter ∈ rackLetters r := by
      have h0 := hcount cv.letter
      have h1 := List.count_cons cv.letter cv.letter (rest.map (fun e => e.2.letter))
      simp only [List.map_cons, beq_self_eq_true, if_true] at h0 h1
      rw [h1] at h0
      exact List.count_pos_iff.mp (by omega)
    have hsome : (rackGetTile r cv.letter).isSome :=
      rackGetTile_isSome_iff.mpr hhead
    cases hget : rackGetTile r cv.letter with
    | none => rw [hget] at hsome; simp at hsome
    | some t =>
      have htl : t.letter = cv.letter := rackGetTile_letter hget
      by_cases hb : cv.letter = '*'
      · -- blank cover: the tile in the rack is rewritten, then removed
        rw [tileApplyCovers, hget] at hpan
        dsimp only at hpan
        rw [if_pos hb, hb] at hpan
        have hmem' : '*' ∈ rackLetters r := hb ▸ hhead
        cases hpt : playTile (rackSetFirst r '*' ⟨toUpperChar cv.actual, t.value⟩)
            b ⟨toUpperChar cv.actual, t.value⟩ p with
        | none => rw [hpt] at hpan; simp at hpan
        | some rb2 =>
          obtain ⟨r2, b2⟩ := rb2
          rw [hpt] at hpan
          have hrem := playTile_ok hpt
          refine ih r2 b2 ?_ hpan
          intro x
          have hc0 := hcount x
          have hsf := rackSetFirst_count (⟨toUpperChar cv.actual, t.value⟩ : Tile)
            hmem' x
          have hrc := rackRemove_count hrem x
          have hcc := List.count_cons x cv.letter (rest.map (fun e => e.2.letter))
          simp only [List.map_cons] at hc0
          rw [hcc, hb] at hc0
          simp only [beq_iff_eq] at hc0
          split_ifs at hc0 hsf hrc <;> omega
      · -- ordinary cover: the matching tile is removed directly
        rw [tileApplyCovers, hget] at hpan
        dsimp only at hpan
        rw [if_neg hb] at hpan
        cases hpt : playTile r b t p with
        | none => rw [hpt] at hpan; simp at hpan
        | some rb2 =>
          obtain ⟨r2, b2⟩ := rb2
          rw [hpt] at hpan
          have hrem := playTile_ok hpt
          refine ih r2 b2 ?_ hpan
          intro x
          have hc0 := hcount x
          have hrc := rackRemove_count hrem x
          have hcc := List.count_cons x cv.letter (rest.map (fun e => e.2.letter))
          simp only [List.map_cons] at hc0
          rw [hcc] at hc0
          rw [htl] at hrc
          simp only [beq_iff_eq] at hc0
          split_ifs at hc0 hrc <;> omega

/-- A blank cover whose `'*'` is not on the rack panics immediately:
`GetTile` returns `(nil, err)` and the blank branch writes through the
nil tile pointer before the error is checked. -/
theorem tileApplyCovers_blank_missing (r : Rack) (b : Board) (p : Pos)
    (cv : Cover) (rest : List (Pos × Cover)) (hstar : cv.letter = '*')
    (hnot : '*' ∉ rackLetters r) :
    tileApplyCovers r b ((p, cv) :: rest) = .panicked := by
  have hnone : rackGetTile r '*' = none := by
    cases hg : rackGetTile r '*' with
    | none => rfl
    | some t =>
      exact absurd (rackGetTile_isSome_iff.mp (by rw [hg]; rfl)) hnot
  simp [tileApplyCovers, hstar, hnone]

/-- C10: `TileMove.Apply` dereferences the tile pointer returned by
`Rack.GetTile` for a blank cover before checking the error.  Under the
precondition that the covers' source letters are multiset-contained in
the mover's rack, `GetTile` always succeeds and `Apply` never panics;
without it, a move whose first cover is a blank missing from the rack
panics instead of returning the error. -/
theorem c10_blank_cover_deref :
    (∀ (g : GameV) (tm : TileMoveV),
        (∀ x ∈ tm.covers.map (fun e => e.2.letter),
            (tm.covers.map (fun e => e.2.letter)).count x
              ≤ (rackLetters (getPlayer g (playerToMoveIndex g)).rack).count x) →
        tileMoveApply g tm ≠ .panicked) ∧
    (∀ (g : GameV) (tm : TileMoveV) (p : Pos) (cv : Cover)
        (rest : List (Pos × Cover)),
        tm.covers = (p, cv) :: rest → cv.letter = '*' →
        '*' ∉ rackLetters (getPlayer g (playerToMoveIndex g)).rack →
        tileMoveApply g tm = .panicked) := by
  constructor
  · intro g tm hcount hpan
    unfold tileMoveApply at hpan
    dsimp only at hpan
    have hcount' : ∀ x, (tm.covers.map (fun e => e.2.letter)).count x
        ≤ (rackLetters (getPlayer g (playerToMoveIndex g)).rack).count x := by
      intro x
      by_cases hx : x ∈ tm.covers.map (fun e => e.2.letter)
      · exact hcount x hx
      · rw [List.count_eq_zero_of_not_mem hx]
        exact Nat.zero_le _
    have hnp := tileApplyCovers_no_panic tm.covers
      (getPlayer g (playerToMoveIndex g)).rack g.board hcount'
    cases hc : tileApplyCovers (getPlayer g (playerToMoveIndex g)).rack
        g.board tm.covers with
    | panicked => exact hnp hc
    | err => rw [hc] at hpan; simp at hpan
    | ok rb => rw [hc] at hpan; simp at hpan
  · intro g tm p cv rest hcov hstar hnot
    unfold tileMoveApply
    dsimp only
    rw [hcov, tileApplyCovers_blank_missing _ _ _ _ _ hstar hnot]

/-- Witness for C10: the rack `*a` applies the blank cover without a
panic, while the rack `a` (no blank) panics on the same move. -/
theorem c10_blank_cover_deref_witness :
    tileMoveApply gameC10 moveC10 ≠ .panicked ∧
    tileMoveApply gameC10b moveC10 = .panicked :=
  ⟨c10_blank_cover_deref.1 gameC10 moveC10 (by decide),
   c10_blank_cover_deref.2 gameC10b moveC10 ⟨7, 7⟩ ⟨'*', 'c'⟩ []
     (by decide) (by decide) (by decide)⟩

/-! ## C3: the rack refill after a `TileMove` -/

/-- A successful cover loop removes exactly one rack tile per cover. -/
theorem tileApplyCovers_ok_length (cs : List (Pos × Cover)) :
    ∀ {r : Rack} {b : Board} {r' : Rack} {b' : Board},
      tileApplyCovers r b cs = .ok (r', b') → r'.length + cs.length = r.length := by
  induction cs with
  | nil =>
    intro r b r' b' h
    simp only [tileApplyCovers, ApplyOutcome.ok.injEq, Prod.mk.injEq] at h
    simp [h.1]
  | cons e rest ih =>
    obtain ⟨p, cv⟩ := e
    intro r b r' b' h
    rw [tileApplyCovers] at h
    cases hget : rackGetTile r cv.letter with
    | none =>
      rw [hget] at h
      dsimp only at h
      by_cases hb : cv.letter = '*' <;> simp [hb] at h
    | some t =>
      rw [hget] at h
      dsimp only at h
      by_cases hb : cv.letter = '*'
      · rw [if_pos hb, hb] at h
        cases hpt : playTile (rackSetFirst r '*' ⟨toUpperChar cv.actual, t.value⟩)
            b ⟨toUpperChar cv.actual, t.value⟩ p with
        | none => rw [hpt] at h; simp at h
        | some rb2 =>
          obtain ⟨r2, b2⟩ := rb2
          rw [hpt] at h
          have h1 := ih h
          have h2 := rackRemove_length (playTile_ok hpt)
          have h3 := rackSetFirst_length r '*'
            (⟨toUpperChar cv.actual, t.value⟩ : Tile)
          simp only [List.length_cons]
          omega
      · rw [if_neg hb] at h
        cases hpt : playTile r b t p with
        | none => rw [hpt] at h; simp at h
        | some rb2 =>
          obtain ⟨r2, b2⟩ := rb2
          rw [hpt] at h
          have h1 := ih h
          have h2 := rackRemove_length (playTile_ok hpt)
          simp only [List.length_cons]
          omega

/-- `Game.scoreMove` changes only scores and the move list: racks and the
bag pass through. -/
theorem scoreMove_preserves {g g' : GameV} {rb : List Char} {mv : MoveV}
    (h : scoreMove g rb mv = some g') :
    g'.player0.rack = g.player0.rack ∧ g'.player1.rack = g.player1.rack ∧
      g'.bag = g.bag := by
  unfold scoreMove at h
  split at h
  · simp at h
  · simp only [Option.some.injEq] at h
    subst h
    unfold addScore
    by_cases h0 : playerToMoveIndex g = 0 <;> simp [h0]

/-- The rack written by `setPlayerRack` is the one `getPlayer` returns
for the same index. -/
theorem getPlayer_setPlayerRack (g : GameV) (i : Nat) (r : Rack) :
    (getPlayer (setPlayerRack g i r) i).rack = r := by
  by_cases h : i = 0 <;> simp [getPlayer, setPlayerRack, h]

/-- C3: after `ApplyValid` of a `TileMove` succeeds from a legal rack
(≤ 7 tiles), the mover's rack length is
`min(RackSize, kept + bag-before)` where `kept` is the rack minus the
covers, and the bag shrank by exactly the number of appended tiles. -/
theorem c3_tile_move_refills_rack (g : GameV) (tm : TileMoveV) (g' : GameV)
    (hlen : (getPlayer g (playerToMoveIndex g)).rack.length ≤ RackSize)
    (h : applyValid g (.tile tm) = .ok g') :
    tm.covers.length ≤ (getPlayer g (playerToMoveIndex g)).rack.length ∧
    (getPlayer g' (playerToMoveIndex g)).rack.length
      = min RackSize
          (((getPlayer g (playerToMoveIndex g)).rack.length - tm.covers.length)
            + g.bag.length) ∧
    g'.bag.length +
        ((getPlayer g' (playerToMoveIndex g)).rack.length
          - ((getPlayer g (playerToMoveIndex g)).rack.length - tm.covers.length))
      = g.bag.length := by
  unfold applyValid at h
  dsimp only at h
  simp only [moveApply] at h
  cases hma : tileMoveApply g tm with
  | panicked => rw [hma] at h; simp at h
  | err => rw [hma] at h; simp at h
  | ok g1 =>
    rw [hma] at h
    dsimp only at h
    -- dissect the tile apply
    unfold tileMoveApply at hma
    dsimp only at hma
    cases hcov : tileApplyCovers (getPlayer g (playerToMoveIndex g)).rack
        g.board tm.covers with
    | panicked => rw [hcov] at hma; simp at hma
    | err => rw [hcov] at hma; simp at hma
    | ok rcbc =>
      obtain ⟨rc, bc⟩ := rcbc
      rw [hcov] at hma
      simp only [ApplyOutcome.ok.injEq] at hma
      have hclen := tileApplyCovers_ok_length tm.covers hcov
      -- rack and bag of g1
      have hg1rack : (getPlayer g1 (playerToMoveIndex g)).rack
          = (rackFill rc g.bag).1 := by
        rw [← hma]
        show (getPlayer (setPlayerRack g (playerToMoveIndex g)
          (rackFill rc g.bag).1) (playerToMoveIndex g)).rack = _
        exact getPlayer_setPlayerRack g (playerToMoveIndex g) (rackFill rc g.bag).1
      have hg1bag : g1.bag = (rackFill rc g.bag).2 := by
        rw [← hma]
      -- the score/final moves leave racks and bag alone
      have hpres : (getPlayer g' (playerToMoveIndex g)).rack
            = (getPlayer g1 (playerToMoveIndex g)).rack ∧ g'.bag = g1.bag := by
        cases hsm : scoreMove g1 (rackLetters (getPlayer g (playerToMoveIndex g)).rack)
            (.tile tm) with
        | none => rw [hsm] at h; simp at h
        | some g2 =>
          rw [hsm] at h
          dsimp only at h
          have h2 := scoreMove_preserves hsm
          by_cases hio : gameIsOver g2 = true
          · rw [if_pos hio] at h
            cases hs3 : scoreMove g2
                (rackLetters (getPlayer g2 (playerToMoveIndex g)).rack)
                (.final (rackLetters (getPlayer g2 (1 - playerToMoveIndex g2)).rack)
                  (if 0 < (rackLetters (getPlayer g2 (playerToMoveIndex g)).rack).length
                    then 1 else 2)) with
            | none => rw [hs3] at h; simp at h
            | some g3 =>
              rw [hs3] at h
              dsimp only at h
              have h3 := scoreMove_preserves hs3
              cases hs4 : scoreMove g3
                  (rackLetters (getPlayer g2 (1 - playerToMoveIndex g2)).rack)
                  (.final (rackLetters (getPlayer g2 (playerToMoveIndex g)).rack)
                    (if 0 < (rackLetters (getPlayer g2 (playerToMoveIndex g)).rack).length
                      then 1 else 2)) with
              | none => rw [hs4] at h; simp at h
              | some g4 =>
                rw [hs4] at h
                dsimp only at h
                simp only [ApplyOutcome.ok.injEq] at h
                subst h
                have h4 := scoreMove_preserves hs4
                constructor
                · unfold getPlayer
                  by_cases h0 : playerToMoveIndex g = 0 <;>
                    simp only [h0, if_pos rfl, if_true, if_neg, if_false] <;>
                    simp [h0, h2.1, h2.2.1, h3.1, h3.2.1, h4.1, h4.2.1]
                · rw [h4.2.2, h3.2.2, h2.2.2]
          · rw [if_neg hio] at h
            simp only [ApplyOutcome.ok.injEq] at h
            subst h
            constructor
            · unfold getPlayer
              by_cases h0 : playerToMoveIndex g = 0 <;>
                simp [h0, h2.1, h2.2.1]
            · exact h2.2.2
      -- arithmetic
      have hrc : rc.length ≤ RackSize := by omega
      have hfill := rackFillGo_length g.bag.length rc g.bag (Nat.le_refl _) hrc
      rw [hpres.1, hpres.2, hg1rack, hg1bag]
      unfold rackFill
      refine ⟨by omega, ?_, ?_⟩
      · rw [hfill.1]
        have : rc.length = (getPlayer g (playerToMoveIndex g)).rack.length
            - tm.covers.length := by omega
        rw [this]
      · have h5 := hfill.2
        have h6 := hfill.1
        rw [Nat.min_def] at h6
        have : rc.length = (getPlayer g (playerToMoveIndex g)).rack.length
            - tm.covers.length := by omega
        rw [this] at h5 h6
        split_ifs at h6 <;> omega

/-- Witness for C3: the mover holds `ab`, plays the `a`, and refills to a
full rack of 7 from the 7-tile bag, which shrinks by 6. -/
theorem c3_tile_move_refills_rack_witness :
    applyValid gameC3 (.tile moveC3) = .ok gameC3After ∧
    moveC3.covers.length ≤ (getPlayer gameC3 (playerToMoveIndex gameC3)).rack.length ∧
    (getPlayer gameC3After (playerToMoveIndex gameC3)).rack.length
      = min RackSize
          (((getPlayer gameC3 (playerToMoveIndex gameC3)).rack.length
              - moveC3.covers.length) + gameC3.bag.length) ∧
    gameC3After.bag.length +
        ((getPlayer gameC3After (playerToMoveIndex gameC3)).rack.length
          - ((getPlayer gameC3 (playerToMoveIndex gameC3)).rack.length
              - moveC3.covers.length))
      = gameC3.bag.length :=
  ⟨by decide,
   c3_tile_move_refills_rack gameC3 moveC3 gameC3After (by decide) (by decide)⟩

/-! ## C5: anchors on an empty board -/

/-- C5 counterexample: on a completely empty board the *row*-7 axis job
(`horizontal = true`, `index = 7`) of the current `Axis.Init` revision
also marks the center square as an anchor — the empty-board special case
tests only `index == BoardCenter && i == BoardCenter`, without the
`!horizontal` condition of the `move.go` revision — so the center anchor
is generated by two of the 30 jobs, not one. -/
theorem c5_row_axis_marks_center :
    (axisInit gsC5 7 true).isAnchor.getD 7 false = true := by
  decide

/-- Reading the per-offset result of the mapped `Axis.Init` loop. -/
theorem axisInit_getD {α : Type} (f : Nat → α) (i : Nat) (d : α)
    (hi : i < BoardSize) :
    ((List.range BoardSize).map f).getD i d = f i := by
  rw [List.getD_eq_getElem _ _ (by simpa using hi)]
  simp

/-- C5 (amended): on an empty board the current `Axis.Init` revision
marks square `i` of axis `index` as an anchor iff `index = 7 ∧ i = 7` —
on *both* orientations, i.e. two of the 30 jobs mark the center — while
the `move.go` revision additionally requires the axis to be vertical,
marking it exactly once. -/
theorem c5_empty_board_anchors (gs : GameStateV) (index i : Nat)
    (horizontal : Bool) (hempty : gs.board = Board.empty)
    (hi : i < BoardSize) :
    ((axisInit gs index horizontal).isAnchor.getD i false
        = (decide (index = BoardCenter) && decide (i = BoardCenter))) ∧
    ((axisInitVert gs index horizontal).isAnchor.getD i false
        = (decide (index = BoardCenter) && decide (i = BoardCenter)
            && !horizontal)) := by
  have hnone : ∀ p, gs.board.tileAt p = none := by
    intro p
    rw [hempty]
    rfl
  constructor
  · unfold axisInit
    dsimp only
    rw [show (((List.range BoardSize).map (axisInitEntry gs index horizontal)).map
        Prod.fst) = (List.range BoardSize).map
          (fun j => (axisInitEntry gs index horizontal j).1) from by
      rw [List.map_map]; rfl]
    rw [axisInit_getD _ i false hi]
    unfold axisInitEntry
    simp only [hnone]
    by_cases h1 : index = BoardCenter <;> by_cases h2 : i = BoardCenter <;>
      simp [h1, h2] <;> split_ifs <;> rfl
  · unfold axisInitVert
    dsimp only
    rw [show (((List.range BoardSize).map (axisInitVertEntry gs index horizontal)).map
        Prod.fst) = (List.range BoardSize).map
          (fun j => (axisInitVertEntry gs index horizontal j).1) from by
      rw [List.map_map]; rfl]
    rw [axisInit_getD _ i false hi]
    unfold axisInitVertEntry
    simp only [hnone]
    by_cases h1 : index = BoardCenter <;> by_cases h2 : i = BoardCenter <;>
      cases horizontal <;> simp [h1, h2]

/-- Witness for C5 (amended): at `index = i = 7` on the horizontal row
axis, the current revision marks the anchor and the `move.go` revision
does not. -/
theorem c5_empty_board_anchors_witness :
    ((axisInit gsC5 7 true).isAnchor.getD 7 false
        = (decide ((7 : Nat) = BoardCenter) && decide ((7 : Nat) = BoardCenter))) ∧
    ((axisInitVert gsC5 7 true).isAnchor.getD 7 false
        = (decide ((7 : Nat) = BoardCenter) && decide ((7 : Nat) = BoardCenter)
            && !true)) :=
  c5_empty_board_anchors gsC5 7 7 true rfl (by decide)

/-! ## C6: correctness of `DAWG.Match` and `DAWG.CrossCheck` -/

/-! ## Step lemmas for the MatchNavigator callbacks -/

theorem matchCB_accept (s : MatchNav) (m : List Char) (f : Bool)
    (o : Option NavState) :
    matchCB.accept s m f o =
      if f ∧ s.index = s.lenP then { s with results := s.results ++ [m] }
      else s := rfl

theorem matchCB_isAccepting (s : MatchNav) :
    matchCB.isAccepting s = decide (s.index < s.lenP) := rfl

theorem matchCB_popEdge {s : MatchNav} {mt : MatchItem} {rest : List MatchItem}
    (h : s.stack = mt :: rest) :
    matchCB.popEdge s = (mt.isWildcard,
      { s with index := mt.index, chMatch := mt.chMatch,
               isWildcard := mt.isWildcard, stack := rest }) := by
  show (match s.stack with
    | [] => (false, s)
    | mt :: rest =>
      (mt.isWildcard,
       { s with index := mt.index, chMatch := mt.chMatch,
                isWildcard := mt.isWildcard, stack := rest })) = _
  rw [h]

theorem matchCB_accepts_fail {pat : List Char} {k : Nat} {s : MatchNav}
    (hInv : matchInv pat k s) {c : Char}
    (hno : ¬(pat.getD k '?' = '*' ∨ pat.getD k '?' = c)) :
    matchCB.accepts s c = (false, s) := by
  obtain ⟨hp, hl, hi, hk, hch, hwc⟩ := hInv
  push_neg at hno
  show (if c ≠ s.chMatch ∧ ¬s.isWildcard then (false, s) else _) = _
  rw [if_pos]
  refine ⟨?_, ?_⟩
  · rw [hch]; exact fun h => hno.2 h.symm
  · rw [hwc]; simpa using hno.1

theorem matchCB_pushEdge_fail {pat : List Char} {k : Nat} {s : MatchNav}
    (hInv : matchInv pat k s) {c : Char}
    (hno : ¬(pat.getD k '?' = '*' ∨ pat.getD k '?' = c)) :
    matchCB.pushEdge s c = (false, s) := by
  obtain ⟨hp, hl, hi, hk, hch, hwc⟩ := hInv
  push_neg at hno
  show (if c ≠ s.chMatch ∧ ¬s.isWildcard then (false, s) else _) = _
  rw [if_pos]
  refine ⟨?_, ?_⟩
  · rw [hch]; exact fun h => hno.2 h.symm
  · rw [hwc]; simpa using hno.1

theorem matchCB_pushEdge_ok {pat : List Char} {k : Nat} {s : MatchNav}
    (hInv : matchInv pat k s) {c : Char}
    (hyes : pat.getD k '?' = '*' ∨ pat.getD k '?' = c) :
    matchCB.pushEdge s c = (true,
      { s with stack := ⟨s.index, s.chMatch, s.isWildcard⟩ :: s.stack }) := by
  obtain ⟨hp, hl, hi, hk, hch, hwc⟩ := hInv
  show (if c ≠ s.chMatch ∧ ¬s.isWildcard then (false, s) else _) = _
  rw [if_neg]
  rintro ⟨h1, h2⟩
  rcases hyes with h | h
  · exact h2 (by rw [hwc]; simpa using h)
  · exact h1 (by rw [hch, h])

theorem matchCB_accepts_ok {pat : List Char} {k : Nat} {s : MatchNav}
    (hInv : matchInv pat k s) {c : Char}
    (hyes : pat.getD k '?' = '*' ∨ pat.getD k '?' = c) :
    ∃ s1, matchCB.accepts s c = (true, s1) ∧
      s1.pattern = s.pattern ∧ s1.lenP = s.lenP ∧ s1.stack = s.stack ∧
      s1.results = s.results ∧ s1.index = k + 1 ∧
      (k + 1 < pat.length → matchInv pat (k + 1) s1) := by
  obtain ⟨hp, hl, hi, hk, hch, hwc⟩ := hInv
  have hcond : ¬(c ≠ s.chMatch ∧ ¬s.isWildcard) := by
    rintro ⟨h1, h2⟩
    rcases hyes with h | h
    · exact h2 (by rw [hwc]; simpa using h)
    · exact h1 (by rw [hch, h])
  show ∃ s1, (if c ≠ s.chMatch ∧ ¬s.isWildcard then (false, s)
      else
        let i := s.index + 1
        if i < s.lenP then
          let ch := s.pattern.getD i '?'
          (true, { s with index := i, chMatch := ch, isWildcard := ch = '*' })
        else (true, { s with index := i })) = (true, s1) ∧ _
  rw [if_neg hcond]
  dsimp only
  rw [hi, hl, hp]
  by_cases hlt : k + 1 < pat.length
  · rw [if_pos hlt]
    refine ⟨_, rfl, rfl, rfl, rfl, rfl, rfl, fun _ => ?_⟩
    exact ⟨rfl, rfl, rfl, hlt, rfl, rfl⟩
  · rw [if_neg hlt]
    exact ⟨_, rfl, rfl, rfl, rfl, rfl, rfl, fun h => absurd h hlt⟩

/-! ## Pattern and edge-list lemmas -/

theorem matchesPat_nil_iff (w : List Char) :
    matchesPat [] w = true ↔ w = [] := by
  cases w <;> simp [matchesPat]

theorem matchesPat_cons_iff (p : Char) (ps w : List Char) :
    matchesPat (p :: ps) w = true ↔
      ∃ c cs, w = c :: cs ∧ (p = '*' ∨ p = c) ∧ matchesPat ps cs = true := by
  cases w with
  | nil => simp [matchesPat]
  | cons c cs =>
    simp only [matchesPat, Bool.and_eq_true, Bool.or_eq_true, decide_eq_true_eq]
    constructor
    · rintro ⟨h1, h2⟩; exact ⟨c, cs, rfl, h1, h2⟩
    · rintro ⟨c0, cs0, heq, h1, h2⟩
      cases heq; exact ⟨h1, h2⟩

theorem drop_eq_getD_cons {pat : List Char} {k : Nat} (h : k < pat.length) :
    pat.drop k = pat.getD k '?' :: pat.drop (k + 1) := by
  rw [List.drop_eq_getElem_cons h, List.getD_eq_getElem pat '?' h]

theorem lookupEdge_cons (c x : Char) (child : Node)
    (tail : List (Char × Node)) :
    lookupEdge ((c, child) :: tail) x =
      if c = x then some child else lookupEdge tail x := by
  by_cases h : c = x <;> simp [lookupEdge, List.find?_cons, h]

theorem lookupEdge_mem_keys {es : List (Char × Node)} {x : Char} {n : Node}
    (h : lookupEdge es x = some n) : x ∈ es.map Prod.fst := by
  unfold lookupEdge at h
  rcases Option.map_eq_some'.mp h with ⟨e, hfind, _⟩
  have hmem := List.mem_of_find?_eq_some hfind
  have hpred := List.find?_some hfind
  simp only [decide_eq_true_eq] at hpred
  exact hpred ▸ List.mem_map_of_mem Prod.fst hmem

theorem memW_mk_cons (b : Bool) (es : List (Char × Node)) (c : Char)
    (cs : List Char) :
    memW (.mk b es) (c :: cs) =
      match lookupEdge es c with
      | none => false
      | some child => memW child cs := rfl

theorem tailWords_iff {b : Bool} {es : List (Char × Node)} {pat : List Char}
    {k : Nat} (hk : k < pat.length) (matched w : List Char) :
    tailWords (.mk b es) pat k matched w ↔ edgeWords es pat k matched w := by
  unfold tailWords edgeWords
  constructor
  · rintro ⟨suffix, hw, hmem, hpat⟩
    rw [drop_eq_getD_cons hk, matchesPat_cons_iff] at hpat
    obtain ⟨c, cs, hsuf, hor, htail⟩ := hpat
    subst hsuf
    rw [memW_mk_cons] at hmem
    cases hlk : lookupEdge es c with
    | none => rw [hlk] at hmem; exact absurd hmem (by simp)
    | some child =>
      rw [hlk] at hmem
      exact ⟨c, child, hlk, hor,
        ⟨cs, by rw [hw]; simp, hmem, htail⟩⟩
  · rintro ⟨c, child, hlk, hor, cs, hw, hmem, hpat⟩
    refine ⟨c :: cs, by rw [hw]; simp, ?_, ?_⟩
    · rw [memW_mk_cons, hlk]; exact hmem
    · rw [drop_eq_getD_cons hk, matchesPat_cons_iff]
      exact ⟨c, cs, rfl, hor, hpat⟩

theorem edgeWords_nil (pat : List Char) (k : Nat) (matched w : List Char) :
    ¬ edgeWords [] pat k matched w := by
  rintro ⟨c, child, hlk, _⟩
  simp [lookupEdge] at hlk

theorem edgeWords_cons {c : Char} {child : Node} {tail : List (Char × Node)}
    (hnd : c ∉ tail.map Prod.fst) (pat : List Char) (k : Nat)
    (matched w : List Char) :
    edgeWords ((c, child) :: tail) pat k matched w ↔
      ((pat.getD k '?' = '*' ∨ pat.getD k '?' = c) ∧
        tailWords child pat (k + 1) (matched ++ [c]) w) ∨
      edgeWords tail pat k matched w := by
  unfold edgeWords
  constructor
  · rintro ⟨c0, child0, hlk, hor, htw⟩
    rw [lookupEdge_cons] at hlk
    by_cases h : c = c0
    · subst h
      rw [if_pos rfl] at hlk
      cases hlk
      exact Or.inl ⟨hor, htw⟩
    · rw [if_neg h] at hlk
      exact Or.inr ⟨c0, child0, hlk, hor, htw⟩
  · rintro (⟨hor, htw⟩ | ⟨c0, child0, hlk, hor, htw⟩)
    · exact ⟨c, child, by rw [lookupEdge_cons, if_pos rfl], hor, htw⟩
    · have hne : c ≠ c0 := by
        rintro rfl
        exact hnd (lookupEdge_mem_keys hlk)
      exact ⟨c0, child0, by rw [lookupEdge_cons, if_neg hne]; exact hlk,
        hor, htw⟩

theorem edgeWords_cons_skip {c : Char} {child : Node}
    {tail : List (Char × Node)} {pat : List Char} {k : Nat}
    (hno : ¬(pat.getD k '?' = '*' ∨ pat.getD k '?' = c))
    (matched w : List Char) :
    edgeWords ((c, child) :: tail) pat k matched w ↔
      edgeWords tail pat k matched w := by
  unfold edgeWords
  constructor
  · rintro ⟨c0, child0, hlk, hor, htw⟩
    rw [lookupEdge_cons] at hlk
    by_cases h : c = c0
    · exact absurd (h ▸ hor) hno
    · rw [if_neg h] at hlk
      exact ⟨c0, child0, hlk, hor, htw⟩
  · rintro ⟨c0, child0, hlk, hor, htw⟩
    have hne : c ≠ c0 := by
      rintro rfl
      exact hno hor
    exact ⟨c0, child0, by rw [lookupEdge_cons, if_neg hne]; exact hlk,
      hor, htw⟩

theorem edgeWords_tail_none {c : Char} {tail : List (Char × Node)}
    {pat : List Char} {k : Nat} (hnd : c ∉ tail.map Prod.fst)
    (hc : pat.getD k '?' = c) (hw : pat.getD k '?' ≠ '*')
    (matched w : List Char) :
    ¬ edgeWords tail pat k matched w := by
  rintro ⟨c0, child0, hlk, hor, _⟩
  rcases hor with h | h
  · exact hw h
  · rw [hc] at h
    subst h
    exact hnd (lookupEdge_mem_keys hlk)

theorem tailWords_end {child : Node} {pat : List Char} {k : Nat}
    (hk : pat.length ≤ k) (matched w : List Char) :
    tailWords child pat k matched w ↔
      (child.isWord = true ∧ w = matched) := by
  unfold tailWords
  rw [List.drop_eq_nil_of_le hk]
  constructor
  · rintro ⟨suffix, hw, hmem, hpat⟩
    rw [matchesPat_nil_iff] at hpat
    subst hpat
    refine ⟨?_, by simpa using hw⟩
    obtain ⟨b, es⟩ := child
    exact hmem
  · rintro ⟨hw, rfl⟩
    refine ⟨[], by simp, ?_, by rw [matchesPat_nil_iff]⟩
    obtain ⟨b, es⟩ := child
    exact hw

theorem tailWords_node {n : Node} {pat : List Char} {k : Nat}
    (hk : k < pat.length) (matched w : List Char) :
    tailWords n pat k matched w ↔ edgeWords n.edges pat k matched w := by
  obtain ⟨b, es⟩ := n
  exact tailWords_iff hk matched w

theorem fromNode_eq {σ : Type} (cb : NavCallbacks σ) (res : Bool)
    (n : Node) (matched : List Char) (s : σ) :
    fromNode cb res n matched s = fromEdges cb res n.edges matched s := by
  obtain ⟨b, es⟩ := n
  rw [fromNode]
  rfl

theorem nodeWF_edges {n : Node} (h : NodeWF n) :
    (n.edges.map Prod.fst).Nodup ∧ (∀ c ∈ n.edges.map Prod.fst, c ≠ '_') ∧
      (∀ p ∈ n.edges, NodeWF p.2) := by
  cases h with
  | mk b es hnd hnp hWFes => exact ⟨hnd, hnp, hWFes⟩

mutual

theorem fromNode_match (pat : List Char) (k : Nat) (matched : List Char)
    (n : Node) (s : MatchNav) (hWF : NodeWF n) (hInv : matchInv pat k s) :
    sameFrame s (fromNode matchCB false n matched s) ∧
    ∀ w, w ∈ (fromNode matchCB false n matched s).results ↔
      (w ∈ s.results ∨ edgeWords n.edges pat k matched w) := by
  rw [fromNode_eq]
  obtain ⟨hnd, hnp, hWFes⟩ := nodeWF_edges hWF
  exact fromEdges_match pat k matched n.edges s hnd hnp hWFes hInv
termination_by 2 * sizeOf n
decreasing_by
  obtain ⟨b, es⟩ := n
  simp [Node.edges]
  omega

theorem fromEdges_match (pat : List Char) (k : Nat) (matched : List Char)
    (es : List (Char × Node)) (s : MatchNav)
    (hnd : (es.map Prod.fst).Nodup)
    (hnp : ∀ c ∈ es.map Prod.fst, c ≠ '_')
    (hWF : ∀ p ∈ es, NodeWF p.2) (hInv : matchInv pat k s) :
    sameFrame s (fromEdges matchCB false es matched s) ∧
    ∀ w, w ∈ (fromEdges matchCB false es matched s).results ↔
      (w ∈ s.results ∨ edgeWords es pat k matched w) := by
  match es with
  | [] =>
    rw [fromEdges]
    refine ⟨⟨rfl, rfl, rfl, rfl, rfl, rfl⟩, fun w => ?_⟩
    simp [edgeWords_nil]
  | (c, child) :: tail =>
    have hc : ¬ c = noPrefixChar := by
      have := hnp c (by simp)
      simpa [noPrefixChar] using this
    rw [List.map_cons, List.nodup_cons] at hnd
    have hndc : c ∉ tail.map Prod.fst := hnd.1
    have hnpt : ∀ x ∈ tail.map Prod.fst, x ≠ '_' :=
      fun x hx => hnp x (by simp [hx])
    have hWFt : ∀ p ∈ tail, NodeWF p.2 :=
      fun p hpm => hWF p (List.mem_cons_of_mem _ hpm)
    have hInvC := hInv
    obtain ⟨hp, hl, hi, hk, hch, hwc⟩ := hInvC
    rw [fromEdges]
    dsimp only
    by_cases hyes : pat.getD k '?' = '*' ∨ pat.getD k '?' = c
    · rw [matchCB_pushEdge_ok hInv hyes]
      dsimp only
      have hInv1 : matchInv pat k
          {s with stack := ⟨s.index, s.chMatch, s.isWildcard⟩ :: s.stack} :=
        ⟨hp, hl, hi, hk, hch, hwc⟩
      obtain ⟨e1, e2, e3, e4⟩ := fromEdge_match pat k matched c child
        {s with stack := ⟨s.index, s.chMatch, s.isWildcard⟩ :: s.stack}
        hc (hWF (c, child) (by simp)) hInv1 hyes
      have e1s : (fromEdge matchCB false ⟨c, some child⟩ matched
          {s with stack := ⟨s.index, s.chMatch, s.isWildcard⟩ :: s.stack}).pattern
          = s.pattern := e1
      have e2s : (fromEdge matchCB false ⟨c, some child⟩ matched
          {s with stack := ⟨s.index, s.chMatch, s.isWildcard⟩ :: s.stack}).lenP
          = s.lenP := e2
      have e4s : ∀ w, w ∈ (fromEdge matchCB false ⟨c, some child⟩ matched
          {s with stack := ⟨s.index, s.chMatch, s.isWildcard⟩ :: s.stack}).results
          ↔ (w ∈ s.results ∨ tailWords child pat (k + 1) (matched ++ [c]) w) :=
        e4
      by_cases hstar : pat.getD k '?' = '*'
      · have hb : s.isWildcard = true := by rw [hwc]; exact decide_eq_true hstar
        have e3c : (fromEdge matchCB false ⟨c, some child⟩ matched
            {s with stack := ⟨s.index, s.chMatch, s.isWildcard⟩ :: s.stack}).stack
            = (⟨s.index, s.chMatch, true⟩ : MatchItem) :: s.stack := by
          refine Eq.trans (b := (⟨s.index, s.chMatch, s.isWildcard⟩ : MatchItem)
            :: s.stack) e3 ?_
          rw [hb]
        rw [matchCB_popEdge e3c]
        dsimp only
        have hInv3 : matchInv pat k
            {fromEdge matchCB false ⟨c, some child⟩ matched
                {s with stack := ⟨s.index, s.chMatch, s.isWildcard⟩ :: s.stack} with
              index := s.index, chMatch := s.chMatch, isWildcard := true,
              stack := s.stack} :=
          ⟨e1s.trans hp, e2s.trans hl, hi, hk, hch, (decide_eq_true hstar).symm⟩
        obtain ⟨hfr, hres⟩ := fromEdges_match pat k matched tail
          {fromEdge matchCB false ⟨c, some child⟩ matched
              {s with stack := ⟨s.index, s.chMatch, s.isWildcard⟩ :: s.stack} with
            index := s.index, chMatch := s.chMatch, isWildcard := true,
            stack := s.stack} hnd.2 hnpt hWFt hInv3
        obtain ⟨f1, f2, f3, f4, f5, f6⟩ := hfr
        refine ⟨⟨f1.trans e1s, f2.trans e2s, f3, f4, f5.trans hb.symm, f6⟩,
          fun w => ?_⟩
        have h1 := hres w
        have h2 : w ∈ ({fromEdge matchCB false ⟨c, some child⟩ matched
            {s with stack := ⟨s.index, s.chMatch, s.isWildcard⟩ :: s.stack} with
          index := s.index, chMatch := s.chMatch, isWildcard := true,
          stack := s.stack} : MatchNav).results
            ↔ (w ∈ s.results ∨ tailWords child pat (k + 1) (matched ++ [c]) w) :=
          e4s w
        rw [h2] at h1
        rw [h1, @edgeWords_cons c child tail hndc pat k matched w]
        constructor
        · rintro ((h | h) | h)
          · exact Or.inl h
          · exact Or.inr (Or.inl ⟨hyes, h⟩)
          · exact Or.inr (Or.inr h)
        · rintro (h | ⟨-, h⟩ | h)
          · exact Or.inl (Or.inl h)
          · exact Or.inl (Or.inr h)
          · exact Or.inr h
      · have hb : s.isWildcard = false := by rw [hwc]; exact decide_eq_false hstar
        have e3c : (fromEdge matchCB false ⟨c, some child⟩ matched
            {s with stack := ⟨s.index, s.chMatch, s.isWildcard⟩ :: s.stack}).stack
            = (⟨s.index, s.chMatch, false⟩ : MatchItem) :: s.stack := by
          refine Eq.trans (b := (⟨s.index, s.chMatch, s.isWildcard⟩ : MatchItem)
            :: s.stack) e3 ?_
          rw [hb]
        rw [matchCB_popEdge e3c]
        dsimp only
        refine ⟨⟨e1s, e2s, rfl, rfl, hb.symm, rfl⟩, fun w => ?_⟩
        have h2 : w ∈ ({fromEdge matchCB false ⟨c, some child⟩ matched
            {s with stack := ⟨s.index, s.chMatch, s.isWildcard⟩ :: s.stack} with
          index := s.index, chMatch := s.chMatch, isWildcard := false,
          stack := s.stack} : MatchNav).results
            ↔ (w ∈ s.results ∨ tailWords child pat (k + 1) (matched ++ [c]) w) :=
          e4s w
        have hcc : pat.getD k '?' = c := hyes.resolve_left hstar
        have h4 := edgeWords_tail_none hndc hcc hstar matched w
        rw [h2, @edgeWords_cons c child tail hndc pat k matched w]
        constructor
        · rintro (h | h)
          · exact Or.inl h
          · exact Or.inr (Or.inl ⟨hyes, h⟩)
        · rintro (h | ⟨-, h⟩ | h)
          · exact Or.inl h
          · exact Or.inr h
          · exact absurd h h4
    · rw [matchCB_pushEdge_fail hInv hyes]
      dsimp only
      obtain ⟨hfr, hres⟩ := fromEdges_match pat k matched tail s hnd.2 hnpt
        hWFt hInv
      refine ⟨hfr, fun w => ?_⟩
      rw [hres w, @edgeWords_cons_skip c child tail pat k hyes matched w]
termination_by 2 * sizeOf es + 1

theorem fromEdge_match (pat : List Char) (k : Nat) (matched : List Char)
    (c : Char) (child : Node) (s : MatchNav)
    (hc : ¬ c = noPrefixChar) (hWF : NodeWF child) (hInv : matchInv pat k s)
    (hyes : pat.getD k '?' = '*' ∨ pat.getD k '?' = c) :
    (fromEdge matchCB false ⟨c, some child⟩ matched s).pattern = s.pattern ∧
    (fromEdge matchCB false ⟨c, some child⟩ matched s).lenP = s.lenP ∧
    (fromEdge matchCB false ⟨c, some child⟩ matched s).stack = s.stack ∧
    ∀ w, w ∈ (fromEdge matchCB false ⟨c, some child⟩ matched s).results ↔
      (w ∈ s.results ∨ tailWords child pat (k + 1) (matched ++ [c]) w) := by
  obtain ⟨s1, hacc, hp1, hl1, hst1, hr1, hi1, hinv1⟩ := matchCB_accepts_ok hInv hyes
  obtain ⟨hp, hl, hi, hk, hch, hwc⟩ := hInv
  rw [fromEdge]
  dsimp only
  rw [if_neg hc, hacc]
  dsimp only
  rw [matchCB_accept]
  by_cases hlt : k + 1 < pat.length
  · have hcond : ¬(child.isWord = true ∧ s1.index = s1.lenP) := by
      rintro ⟨-, h2⟩
      rw [hi1, hl1, hl] at h2
      omega
    rw [if_neg hcond]
    have hacc2 : matchCB.isAccepting s1 = true := by
      rw [matchCB_isAccepting, hi1, hl1, hl]
      simpa using hlt
    rw [hacc2]
    dsimp only
    obtain ⟨hfr, hres⟩ := fromNode_match pat (k + 1) (matched ++ [c]) child s1
      hWF (hinv1 hlt)
    obtain ⟨f1, f2, f3, f4, f5, f6⟩ := hfr
    refine ⟨f1.trans hp1, f2.trans hl1, f6.trans hst1, fun w => ?_⟩
    rw [hres w, hr1, tailWords_node hlt (matched ++ [c]) w]
  · have hke : k + 1 = pat.length := by omega
    have hend : pat.length ≤ k + 1 := by omega
    by_cases hbw : child.isWord = true
    · rw [if_pos ⟨hbw, by rw [hi1, hl1, hl, hke]⟩]
      have hacc2 : matchCB.isAccepting
          {s1 with results := s1.results ++ [matched ++ [c]]} = false := by
        rw [matchCB_isAccepting]
        dsimp only
        rw [hi1, hl1, hl]
        simp [hke]
      rw [hacc2]
      dsimp only
      refine ⟨hp1, hl1, hst1, fun w => ?_⟩
      rw [tailWords_end hend (matched ++ [c]) w]
      simp [hr1, hbw]
    · rw [if_neg (by rintro ⟨h1, -⟩; exact hbw h1)]
      have hacc2 : matchCB.isAccepting s1 = false := by
        rw [matchCB_isAccepting, hi1, hl1, hl]
        simp [hke]
      rw [hacc2]
      dsimp only
      refine ⟨hp1, hl1, hst1, fun w => ?_⟩
      rw [tailWords_end hend (matched ++ [c]) w]
      simp [hr1, hbw]
termination_by 2 * sizeOf child + 3

end

/-! ## From the engine run to `DAWG.Match` and `DAWG.CrossCheck` -/

theorem headD_eq_getD_zero (pat : List Char) :
    pat.headD '?' = pat.getD 0 '?' := by
  cases pat <;> rfl

theorem dawgMatch_iff {root : Node} {pat : List Char} (hWF : NodeWF root)
    (hne : pat ≠ []) (w : List Char) :
    w ∈ dawgMatch root pat ↔
      (memW root w = true ∧ matchesPat pat w = true) := by
  have hlen : 0 < pat.length := List.length_pos.mpr hne
  have hch : pat.headD '?' = pat.getD 0 '?' := headD_eq_getD_zero pat
  have hInv : matchInv pat 0 (matchInit pat) :=
    ⟨rfl, rfl, rfl, hlen, hch, by
      show decide (pat.headD '?' = '*') = _
      rw [hch]⟩
  have hacc : matchCB.isAccepting (matchInit pat) = true := by
    rw [matchCB_isAccepting]
    show decide (0 < pat.length) = true
    exact decide_eq_true hlen
  have ht : edgeWords root.edges pat 0 [] w ↔
      (memW root w = true ∧ matchesPat pat w = true) := by
    rw [← @tailWords_node root pat 0 hlen [] w]
    constructor
    · rintro ⟨suffix, rfl, h1, h2⟩
      exact ⟨h1, h2⟩
    · rintro ⟨h1, h2⟩
      exact ⟨w, rfl, h1, h2⟩
  unfold dawgMatch navGo
  rw [if_pos hacc]
  obtain ⟨-, hres⟩ := fromNode_match pat 0 [] root (matchInit pat) hWF hInv
  rw [hres w, ht]
  have hnil : w ∈ (matchInit pat).results ↔ False := by
    show w ∈ ([] : List (List Char)) ↔ False
    simp
  rw [hnil, false_or]

theorem matchesPat_no_wild : ∀ {p m : List Char}, '*' ∉ p →
    matchesPat p m = true → m = p := by
  intro p
  induction p with
  | nil =>
    intro m _ h
    exact (matchesPat_nil_iff m).mp h
  | cons c cs ih =>
    intro m hni h
    obtain ⟨d, ds, rfl, hor, htail⟩ := (matchesPat_cons_iff c cs m).mp h
    have hcs : '*' ∉ cs := fun hx => hni (List.mem_cons_of_mem _ hx)
    have hcne : c ≠ '*' := fun hx => hni (hx ▸ List.mem_cons_self c cs)
    have hcd : c = d := hor.resolve_left hcne
    rw [ih hcs htail, hcd]

theorem matchesPat_refl : ∀ (p : List Char), matchesPat p p = true := by
  intro p
  induction p with
  | nil => rfl
  | cons c cs ih => simp [matchesPat, ih]

theorem matchesPat_wild_mid {prev after : List Char} (hprev : '*' ∉ prev)
    (hafter : '*' ∉ after) (m : List Char) :
    matchesPat (prev ++ '*' :: after) m = true ↔
      ∃ x, m = prev ++ x :: after := by
  induction prev generalizing m with
  | nil =>
    simp only [List.nil_append]
    rw [matchesPat_cons_iff]
    constructor
    · rintro ⟨x, ds, rfl, -, htail⟩
      exact ⟨x, by rw [matchesPat_no_wild hafter htail]⟩
    · rintro ⟨x, rfl⟩
      exact ⟨x, after, rfl, Or.inl rfl, matchesPat_refl after⟩
  | cons c cs ih =>
    have hcs : '*' ∉ cs := fun hx => hprev (List.mem_cons_of_mem _ hx)
    have hcne : c ≠ '*' := fun hx => hprev (hx ▸ List.mem_cons_self c cs)
    rw [List.cons_append, matchesPat_cons_iff]
    constructor
    · rintro ⟨d, ds, rfl, hor, htail⟩
      have hcd : c = d := hor.resolve_left hcne
      obtain ⟨x, rfl⟩ := (ih hcs ds).mp htail
      exact ⟨x, by rw [hcd, List.cons_append]⟩
    · rintro ⟨x, rfl⟩
      exact ⟨c, cs ++ x :: after, rfl, Or.inr rfl, (ih hcs _).mpr ⟨x, rfl⟩⟩

theorem getD_append_mid (prev after : List Char) (x : Char) :
    (prev ++ x :: after).getD prev.length '?' = x := by
  rw [List.getD_append_right prev (x :: after) '?' prev.length le_rfl]
  simp

/-- C6 (amended): over a well-formed trie and wildcard-free context
strings, `DAWG.CrossCheck` contains a letter `L` exactly when
`prev + L + after` is a word of the DAWG. -/
theorem c6_cross_check (root : Node) (prev after : List Char) (L : Char)
    (hWF : NodeWF root) (hprev : '*' ∉ prev) (hafter : '*' ∉ after) :
    L ∈ crossCheckD root prev after ↔
      memW root (prev ++ L :: after) = true := by
  have hne : prev ++ '*' :: after ≠ [] := by simp
  unfold crossCheckD
  rw [List.mem_map]
  constructor
  · rintro ⟨m, hm, rfl⟩
    obtain ⟨hmem, hpat⟩ := (dawgMatch_iff hWF hne m).mp hm
    obtain ⟨x, rfl⟩ := (matchesPat_wild_mid hprev hafter m).mp hpat
    rw [getD_append_mid]
    exact hmem
  · intro hmem
    refine ⟨prev ++ L :: after, ?_, getD_append_mid prev after L⟩
    exact (dawgMatch_iff hWF hne _).mpr
      ⟨hmem, (matchesPat_wild_mid hprev hafter _).mpr ⟨L, rfl⟩⟩

/-! ## `DAWG.insert` preserves trie well-formedness -/

theorem lookupEdge_mem {es : List (Char × Node)} {c : Char} {child : Node}
    (h : lookupEdge es c = some child) : (c, child) ∈ es := by
  unfold lookupEdge at h
  rcases Option.map_eq_some'.mp h with ⟨e, hfind, hsnd⟩
  obtain ⟨e1, e2⟩ := e
  have hmem := List.mem_of_find?_eq_some hfind
  have hpred := List.find?_some hfind
  simp only [decide_eq_true_eq] at hpred
  cases hpred
  cases hsnd
  exact hmem

theorem mem_updateEdge {es : List (Char × Node)} {c : Char} {child : Node}
    {p : Char × Node} :
    p ∈ updateEdge es c child → p = (c, child) ∨ p ∈ es := by
  induction es with
  | nil => intro h; simpa [updateEdge] using h
  | cons hd tail ih =>
    intro h
    obtain ⟨c0, n0⟩ := hd
    by_cases hc : c0 = c
    · have hupd : updateEdge ((c0, n0) :: tail) c child = (c, child) :: tail := by
        simp [updateEdge, hc]
      rw [hupd] at h
      rcases List.mem_cons.mp h with h1 | h1
      · exact Or.inl h1
      · exact Or.inr (List.mem_cons_of_mem _ h1)
    · have hupd : updateEdge ((c0, n0) :: tail) c child
          = (c0, n0) :: updateEdge tail c child := by
        simp [updateEdge, hc]
      rw [hupd] at h
      rcases List.mem_cons.mp h with h1 | h1
      · exact Or.inr (h1 ▸ List.mem_cons_self _ _)
      · rcases ih h1 with h2 | h2
        · exact Or.inl h2
        · exact Or.inr (List.mem_cons_of_mem _ h2)

theorem updateEdge_keys (es : List (Char × Node)) (c : Char) (child : Node) :
    (updateEdge es c child).map Prod.fst =
      if c ∈ es.map Prod.fst then es.map Prod.fst
      else es.map Prod.fst ++ [c] := by
  induction es with
  | nil => simp [updateEdge]
  | cons hd tail ih =>
    obtain ⟨c0, n0⟩ := hd
    by_cases hc : c0 = c
    · subst hc
      simp [updateEdge]
    · have hcc : ¬ c = c0 := fun h => hc h.symm
      by_cases hmem : c ∈ tail.map Prod.fst
      · simp [updateEdge, hc, ih, hmem, hcc]
      · simp [updateEdge, hc, ih, hmem, hcc]

theorem nodeWF_nil (b : Bool) : NodeWF (.mk b []) := by
  refine NodeWF.mk b [] (by simp) (by simp) (by simp)

theorem nodeWF_insert : ∀ (w : List Char), (∀ c ∈ w, c ≠ '_') →
    ∀ {n : Node}, NodeWF n → NodeWF (n.insert w) := by
  intro w
  induction w with
  | nil =>
    intro _ n hn
    obtain ⟨b, es⟩ := n
    cases hn with
    | mk _ _ hnd hnp hWFes =>
      exact NodeWF.mk true es hnd hnp hWFes
  | cons c rest ih =>
    intro hw n hn
    have hcne : c ≠ '_' := hw c (List.mem_cons_self _ _)
    have hrest : ∀ x ∈ rest, x ≠ '_' :=
      fun x hx => hw x (List.mem_cons_of_mem _ hx)
    obtain ⟨b, es⟩ := n
    cases hn with
    | mk _ _ hnd hnp hWFes =>
      have hnext : NodeWF ((lookupEdge es c).getD (.mk false [])) := by
        cases hlk : lookupEdge es c with
        | none => exact nodeWF_nil false
        | some child => exact hWFes (c, child) (lookupEdge_mem hlk)
      have hins : NodeWF (((lookupEdge es c).getD (.mk false [])).insert rest) :=
        ih hrest hnext
      refine NodeWF.mk _ _ ?_ ?_ ?_
      · rw [updateEdge_keys]
        split_ifs with hm
        · exact hnd
        · refine List.Nodup.append hnd (List.nodup_singleton c) ?_
          intro x hx1 hx2
          rw [List.mem_singleton] at hx2
          exact hm (hx2 ▸ hx1)
      · intro x hx
        rw [updateEdge_keys] at hx
        split_ifs at hx with hm
        · exact hnp x hx
        · rcases List.mem_append.mp hx with h | h
          · exact hnp x h
          · rw [List.mem_singleton.mp h]
            exact hcne
      · intro p hp
        rcases mem_updateEdge hp with h | h
        · rw [h]
          exact hins
        · exact hWFes p h

theorem nodeWF_foldl : ∀ (words : List (List Char)),
    (∀ w ∈ words, ∀ c ∈ w, c ≠ '_') →
    ∀ {n : Node}, NodeWF n → NodeWF (words.foldl Node.insert n) := by
  intro words
  induction words with
  | nil => intro _ n hn; exact hn
  | cons w ws ih =>
    intro hws n hn
    rw [List.foldl_cons]
    exact ih (fun v hv => hws v (List.mem_cons_of_mem _ hv))
      (nodeWF_insert w (hws w (List.mem_cons_self _ _)) hn)

theorem nodeWF_buildDawg (words : List (List Char))
    (hws : ∀ w ∈ words, ∀ c ∈ w, c ≠ '_') : NodeWF (buildDawg words) :=
  nodeWF_foldl words hws (nodeWF_nil false)

/-- C6: the claim quantifies over *every* pair of strings, but a `prev`
containing the wildcard `'*'` breaks it: over the DAWG `{"ab"}`,
`CrossCheck("*", "")` matches the key `"**"` against `"ab"` and collects
the letter at index 1, returning `{'b'}` — yet `"*b"` is not in the
DAWG (and `"ab"`, which is, is not of the form `prev+L+after = "*"+L`). -/
theorem c6_wildcard_prev_counterexample :
    crossCheckD abDawg ['*'] [] = ['b'] ∧ memW abDawg ['*', 'b'] = false := by
  constructor
  · simp [crossCheckD, dawgMatch, navGo, matchInit, matchCB, fromNode,
      fromEdges, fromEdge, abDawg, buildDawg, Node.insert, lookupEdge,
      updateEdge, Node.edges, Node.isWord, noPrefixChar]
  · decide

/-- C6 witness: over the `{"cat","cats","cab"}` DAWG, the amended
cross-check equivalence yields `'a' ∈ CrossCheck("c", "t")` from
`"cat"` being in the DAWG. -/
theorem c6_cross_check_witness :
    'a' ∈ crossCheckD catDawg ['c'] ['t'] :=
  (c6_cross_check catDawg ['c'] ['t'] 'a'
    (nodeWF_buildDawg _ (by decide)) (by decide) (by decide)).mpr (by decide)

/-! ## C7: the `TileMove.Score` formula -/

theorem map_range_shift {α : Type} (g : Nat → α) (n : Nat) :
    (List.range (n + 1)).map g = g 0 :: (List.range n).map (fun k => g (k + 1)) := by
  rw [List.range_succ_eq_map, List.map_cons, List.map_map]
  rfl

theorem tileMoveScoreLoop_succ (b : Board) (tm : TileMoveV)
    (rowIncr colIncr : Nat) (pos : Pos) (fuel : Nat)
    (h : (coversLookup tm.covers pos).isSome = true ∨
      (b.tileAt pos).isSome = true) :
    tileMoveScoreLoop b tm rowIncr colIncr pos (fuel + 1) =
      (if tm.stop.row ≤ pos.row ∧ tm.stop.col ≤ pos.col then
        some (specSquareScore b tm pos, specSquareCross b tm pos,
          specSquareWordMult tm pos)
      else
        match tileMoveScoreLoop b tm rowIncr colIncr
            ⟨pos.row + rowIncr, pos.col + colIncr⟩ fuel with
        | none => none
        | some (sc', cs', wm') =>
          some (specSquareScore b tm pos + sc', specSquareCross b tm pos + cs',
            specSquareWordMult tm pos * wm')) := by
  rcases hcv : coversLookup tm.covers pos with _ | cover
  · rcases hta : b.tileAt pos with _ | t
    · rcases h with h | h
      · rw [hcv] at h; exact absurd h (by simp)
      · rw [hta] at h; exact absurd h (by simp)
    · simp only [tileMoveScoreLoop, hcv, hta, specSquareScore,
        specSquareCross, specSquareWordMult, Option.isSome_none,
        Option.map_some', Option.getD_some, Bool.false_eq_true, if_false]
  · simp only [tileMoveScoreLoop, hcv, specSquareScore, specSquareCross,
      specSquareWordMult, Option.isSome_some, if_true]

theorem tileMoveScoreLoop_walk_h (b : Board) (tm : TileMoveV) (r : Nat) :
    ∀ (d c fuel : Nat), tm.stop.row = r → tm.stop.col = c + d →
    d + 1 ≤ fuel →
    (∀ i, i ≤ d → (coversLookup tm.covers ⟨r, c + i⟩).isSome = true ∨
      (b.tileAt ⟨r, c + i⟩).isSome = true) →
    tileMoveScoreLoop b tm 0 1 ⟨r, c⟩ fuel =
      some (((List.range (d + 1)).map
          (fun k => specSquareScore b tm ⟨r, c + k⟩)).sum,
        ((List.range (d + 1)).map
          (fun k => specSquareCross b tm ⟨r, c + k⟩)).sum,
        ((List.range (d + 1)).map
          (fun k => specSquareWordMult tm ⟨r, c + k⟩)).prod) := by
  intro d
  induction d with
  | zero =>
    intro c fuel hr hc hfuel hfill
    obtain ⟨f, rfl⟩ : ∃ f, fuel = f + 1 := ⟨fuel - 1, by omega⟩
    rw [tileMoveScoreLoop_succ b tm 0 1 ⟨r, c⟩ f
      (by simpa using hfill 0 (Nat.le_refl 0))]
    rw [if_pos ⟨show tm.stop.row ≤ r from le_of_eq hr,
      show tm.stop.col ≤ c from by omega⟩]
    rw [map_range_shift (fun k => specSquareScore b tm ⟨r, c + k⟩) 0,
      map_range_shift (fun k => specSquareCross b tm ⟨r, c + k⟩) 0,
      map_range_shift (fun k => specSquareWordMult tm ⟨r, c + k⟩) 0]
    simp
  | succ d ih =>
    intro c fuel hr hc hfuel hfill
    obtain ⟨f, rfl⟩ : ∃ f, fuel = f + 1 := ⟨fuel - 1, by omega⟩
    rw [tileMoveScoreLoop_succ b tm 0 1 ⟨r, c⟩ f
      (by simpa using hfill 0 (Nat.zero_le _))]
    rw [if_neg (by
      rintro ⟨-, h2⟩
      exact absurd (show tm.stop.col ≤ c from h2) (by omega))]
    simp only [Nat.add_zero]
    rw [ih (c + 1) f hr (by omega) (by omega) (fun i hi => by
      have h := hfill (i + 1) (by omega)
      rwa [show c + (i + 1) = c + 1 + i from by omega] at h)]
    rw [map_range_shift (fun k => specSquareScore b tm ⟨r, c + k⟩) (d + 1),
      map_range_shift (fun k => specSquareCross b tm ⟨r, c + k⟩) (d + 1),
      map_range_shift (fun k => specSquareWordMult tm ⟨r, c + k⟩) (d + 1)]
    simp only [List.sum_cons, List.prod_cons, Nat.add_zero]
    have hfun : ∀ k : Nat, c + 1 + k = c + (k + 1) := fun k => by omega
    simp only [hfun]

theorem tileMoveScoreLoop_walk_v (b : Board) (tm : TileMoveV) (c : Nat) :
    ∀ (d r fuel : Nat), tm.stop.col = c → tm.stop.row = r + d →
    d + 1 ≤ fuel →
    (∀ i, i ≤ d → (coversLookup tm.covers ⟨r + i, c⟩).isSome = true ∨
      (b.tileAt ⟨r + i, c⟩).isSome = true) →
    tileMoveScoreLoop b tm 1 0 ⟨r, c⟩ fuel =
      some (((List.range (d + 1)).map
          (fun k => specSquareScore b tm ⟨r + k, c⟩)).sum,
        ((List.range (d + 1)).map
          (fun k => specSquareCross b tm ⟨r + k, c⟩)).sum,
        ((List.range (d + 1)).map
          (fun k => specSquareWordMult tm ⟨r + k, c⟩)).prod) := by
  intro d
  induction d with
  | zero =>
    intro r fuel hcc hrr hfuel hfill
    obtain ⟨f, rfl⟩ : ∃ f, fuel = f + 1 := ⟨fuel - 1, by omega⟩
    rw [tileMoveScoreLoop_succ b tm 1 0 ⟨r, c⟩ f
      (by simpa using hfill 0 (Nat.le_refl 0))]
    rw [if_pos ⟨show tm.stop.row ≤ r from by omega,
      show tm.stop.col ≤ c from le_of_eq hcc⟩]
    rw [map_range_shift (fun k => specSquareScore b tm ⟨r + k, c⟩) 0,
      map_range_shift (fun k => specSquareCross b tm ⟨r + k, c⟩) 0,
      map_range_shift (fun k => specSquareWordMult tm ⟨r + k, c⟩) 0]
    simp
  | succ d ih =>
    intro r fuel hcc hrr hfuel hfill
    obtain ⟨f, rfl⟩ : ∃ f, fuel = f + 1 := ⟨fuel - 1, by omega⟩
    rw [tileMoveScoreLoop_succ b tm 1 0 ⟨r, c⟩ f
      (by simpa using hfill 0 (Nat.zero_le _))]
    rw [if_neg (by
      rintro ⟨h1, -⟩
      exact absurd (show tm.stop.row ≤ r from h1) (by omega))]
    simp only [Nat.add_zero]
    rw [ih (r + 1) f hcc (by omega) (by omega) (fun i hi => by
      have h := hfill (i + 1) (by omega)
      rwa [show r + (i + 1) = r + 1 + i from by omega] at h)]
    rw [map_range_shift (fun k => specSquareScore b tm ⟨r + k, c⟩) (d + 1),
      map_range_shift (fun k => specSquareCross b tm ⟨r + k, c⟩) (d + 1),
      map_range_shift (fun k => specSquareWordMult tm ⟨r + k, c⟩) (d + 1)]
    simp only [List.sum_cons, List.prod_cons, Nat.add_zero]
    have hfun : ∀ k : Nat, r + 1 + k = r + (k + 1) := fun k => by omega
    simp only [hfun]

/-- C7: for a fresh (uncached) tile move laid within the board along one
axis whose main-word squares are all covered or already tiled,
`TileMove.Score` computes exactly the claimed formula: the sum of
placed-letter values times their letter multipliers plus pre-existing
tile values over the main word including the fragments beyond both ends,
times the product of the covered squares' word multipliers, plus the
accumulated cross scores, plus a bingo bonus of exactly 50 iff the
number of covers is `RackSize = 7`. -/
theorem c7_tile_move_score (b : Board) (tm : TileMoveV)
    (hcache : tm.cachedScore = none)
    (hspan : tm.stop.row < BoardSize ∧ tm.stop.col < BoardSize)
    (horient : if tm.horizontal = true then
        tm.start.row = tm.stop.row ∧ tm.start.col ≤ tm.stop.col
      else tm.start.col = tm.stop.col ∧ tm.start.row ≤ tm.stop.row)
    (hfilled : ∀ p ∈ specMainPositions tm,
      (coversLookup tm.covers p).isSome = true ∨
        (b.tileAt p).isSome = true) :
    tileMoveScore b tm = some (specTileMoveScore b tm) := by
  unfold tileMoveScore
  rw [hcache]
  dsimp only
  rcases htm : tm.horizontal with _ | _
  · -- vertical
    simp only [htm, Bool.false_eq_true, if_false] at horient
    obtain ⟨hcc, hrr⟩ := horient
    have hps : specMainPositions tm =
        (List.range ((tm.stop.row - tm.start.row) + 1)).map
          (fun k => (⟨tm.start.row + k, tm.start.col⟩ : Pos)) := by
      unfold specMainPositions
      rw [if_neg (by simp [htm])]
      rw [show tm.stop.row + 1 - tm.start.row
        = (tm.stop.row - tm.start.row) + 1 from by omega]
    have hwalk := tileMoveScoreLoop_walk_v b tm tm.start.col
      (tm.stop.row - tm.start.row) tm.start.row (2 * BoardSize) hcc.symm
      (by omega) (by have := hspan.1; unfold BoardSize at this ⊢; omega)
      (fun i hi => by
        refine hfilled _ ?_
        rw [hps]
        exact List.mem_map_of_mem _ (List.mem_range.mpr (by omega)))
    have hsum1 : ((specMainPositions tm).map (specSquareScore b tm)).sum
        = ((List.range ((tm.stop.row - tm.start.row) + 1)).map
            (fun k => specSquareScore b tm ⟨tm.start.row + k, tm.start.col⟩)).sum := by
      rw [hps, List.map_map]
      rfl
    have hsum2 : ((specMainPositions tm).map (specSquareCross b tm)).sum
        = ((List.range ((tm.stop.row - tm.start.row) + 1)).map
            (fun k => specSquareCross b tm ⟨tm.start.row + k, tm.start.col⟩)).sum := by
      rw [hps, List.map_map]
      rfl
    have hsum3 : ((specMainPositions tm).map (specSquareWordMult tm)).prod
        = ((List.range ((tm.stop.row - tm.start.row) + 1)).map
            (fun k => specSquareWordMult tm ⟨tm.start.row + k, tm.start.col⟩)).prod := by
      rw [hps, List.map_map]
      rfl
    unfold tileMoveScoreFresh specTileMoveScore
    dsimp only
    simp only [htm, Bool.false_eq_true, if_false]
    rw [show (⟨tm.start.row, tm.start.col⟩ : Pos) = tm.start from rfl] at hwalk
    rw [hwalk]
    dsimp only
    rw [hsum1, hsum2, hsum3]
    split_ifs with hb
    · rfl
    · simp
  · -- horizontal
    simp only [htm, if_true] at horient
    obtain ⟨hrr, hcc⟩ := horient
    have hps : specMainPositions tm =
        (List.range ((tm.stop.col - tm.start.col) + 1)).map
          (fun k => (⟨tm.start.row, tm.start.col + k⟩ : Pos)) := by
      unfold specMainPositions
      rw [if_pos htm]
      rw [show tm.stop.col + 1 - tm.start.col
        = (tm.stop.col - tm.start.col) + 1 from by omega]
    have hwalk := tileMoveScoreLoop_walk_h b tm tm.start.row
      (tm.stop.col - tm.start.col) tm.start.col (2 * BoardSize) hrr.symm
      (by omega) (by have := hspan.2; unfold BoardSize at this ⊢; omega)
      (fun i hi => by
        refine hfilled _ ?_
        rw [hps]
        exact List.mem_map_of_mem _ (List.mem_range.mpr (by omega)))
    have hsum1 : ((specMainPositions tm).map (specSquareScore b tm)).sum
        = ((List.range ((tm.stop.col - tm.start.col) + 1)).map
            (fun k => specSquareScore b tm ⟨tm.start.row, tm.start.col + k⟩)).sum := by
      rw [hps, List.map_map]
      rfl
    have hsum2 : ((specMainPositions tm).map (specSquareCross b tm)).sum
        = ((List.range ((tm.stop.col - tm.start.col) + 1)).map
            (fun k => specSquareCross b tm ⟨tm.start.row, tm.start.col + k⟩)).sum := by
      rw [hps, List.map_map]
      rfl
    have hsum3 : ((specMainPositions tm).map (specSquareWordMult tm)).prod
        = ((List.range ((tm.stop.col - tm.start.col) + 1)).map
            (fun k => specSquareWordMult tm ⟨tm.start.row, tm.start.col + k⟩)).prod := by
      rw [hps, List.map_map]
      rfl
    unfold tileMoveScoreFresh specTileMoveScore
    dsimp only
    simp only [htm, if_true]
    rw [show (⟨tm.start.row, tm.start.col⟩ : Pos) = tm.start from rfl] at hwalk
    rw [hwalk]
    dsimp only
    rw [hsum1, hsum2, hsum3]
    split_ifs with hb
    · rfl
    · simp

/-- C7 witness: the claim's concrete scenario — "cat" placed
horizontally on row 7, columns 6-8 of an empty board — satisfies every
hypothesis, and the formula (hence `TileMove.Score`) yields 10. -/
theorem c7_tile_move_score_witness :
    tileMoveScore Board.empty moveCat
        = some (specTileMoveScore Board.empty moveCat) ∧
      specTileMoveScore Board.empty moveCat = 10 :=
  ⟨c7_tile_move_score Board.empty moveCat rfl (by decide) (by decide)
    (by decide), by decide⟩

end Scrabble
